import Mathlib

/-!
# Sermon-Library: verification of the catalog reconciliation and import/export core

Shallow embedding of the renderer core of the Sermon-Library application
(`src/renderer/src/App.tsx` and `src/renderer/src/components/SermonDetailsModal.tsx`).

Modelling conventions:
* JavaScript strings are embedded as `List Char` (`Str`); the relevant string
  operations (`trim`, `split`, `includes`, `toLowerCase`, `replace(/"/g,'')`)
  are defined character by character to match the JS semantics on the ASCII
  data this program handles.
* JavaScript `Date` values are embedded at day precision as `CalDate`
  (year/month/day), ordered lexicographically; this matches `getTime`
  comparisons for the dates the program constructs (local midnights).
  `new Date(y, m-1, d)` overflow normalisation is modelled by `jsMkDate`.
* Environmental inputs (`Date.now()`, `Math.random()`, `new Date()`) are
  passed in explicitly (`now` parameters and explicit id strings), which
  determinises the functions without changing any field the theorems speak
  about.
-/

abbrev Str := List Char

/-- Whitespace as removed by JavaScript `String.prototype.trim` (the ASCII part,
which is all that occurs in this program's data). -/
def isWSChar (c : Char) : Bool := c = ' ' || c = '\t' || c = '\n' || c = '\r'

/-- JS `s.trim()`. -/
def trimL (s : Str) : Str :=
  ((s.dropWhile isWSChar).reverse.dropWhile isWSChar).reverse

/-- JS `s.split(sep)` for a one-character separator. -/
def splitOnChar (sep : Char) : Str → List Str
  | [] => [[]]
  | c :: rest =>
    let r := splitOnChar sep rest
    if c = sep then [] :: r
    else
      match r with
      | [] => [[c]]
      | h :: t => (c :: h) :: t

/-- JS `s.toLowerCase()` (ASCII). -/
def strLower (s : Str) : Str := s.map Char.toLower

/-- JS `s.replace(/"/g, '')`. -/
def removeQuotes (s : Str) : Str := s.filter (fun c => c ≠ '"')

def strStartsWith : Str → Str → Bool
  | _, [] => true
  | [], _ :: _ => false
  | c :: cs, d :: ds => c = d && strStartsWith cs ds

/-- JS `h.includes(sub)`. -/
def strIncludes (h sub : Str) : Bool :=
  match h with
  | [] => sub.isEmpty
  | _ :: t => strStartsWith h sub || strIncludes t sub

def isDigitB (c : Char) : Bool := '0' ≤ c && c ≤ '9'

def allDigits (s : Str) : Bool := s.all isDigitB

/-- JS `parseInt` on an all-digit string (leading zeros allowed). -/
def digitsToNat (s : Str) : Nat := s.foldl (fun a c => 10 * a + (c.toNat - 48)) 0

/-- A calendar date at day precision (the precision at which this program
compares and serialises its `Date` values). -/
structure CalDate where
  year : Nat
  month : Nat
  day : Nat
deriving DecidableEq, Repr

/-- JS `a < b` on the `Date`s this program builds (lexicographic on y/m/d). -/
def CalDate.ltb (a b : CalDate) : Bool :=
  a.year < b.year ||
    (a.year = b.year &&
      (a.month < b.month || (a.month = b.month && a.day < b.day)))

def CalDate.leb (a b : CalDate) : Bool := !(CalDate.ltb b a)

def isLeapYear (y : Nat) : Bool := y % 4 = 0 && (y % 100 ≠ 0 || y % 400 = 0)

def daysInMonth (y m : Nat) : Nat :=
  if m = 2 then (if isLeapYear y then 29 else 28)
  else if m = 4 || m = 6 || m = 9 || m = 11 then 30
  else 31

/-- JS `new Date(y, m-1, d)` for `1 ≤ m ≤ 12`, `1 ≤ d ≤ 31` (the bounds the
source checks before constructing): day overflow rolls into the next month. -/
def jsMkDate (y m d : Nat) : CalDate :=
  let dim := daysInMonth y m
  if d ≤ dim then ⟨y, m, d⟩
  else if m = 12 then ⟨y + 1, 1, d - dim⟩
  else ⟨y, m + 1, d - dim⟩

/-- The bounds-plus-round-trip validation performed by `parseDate` in
`App.tsx` for a candidate day/month/year triple. -/
def checkedDate (day mon yr : Nat) : Option CalDate :=
  if 1 ≤ day && day ≤ 31 && 1 ≤ mon && mon ≤ 12 && 1900 ≤ yr && yr ≤ 2100 then
    let p := jsMkDate yr mon day
    if p.day = day && p.month = mon && p.year = yr then some p else none
  else none

def widthOneOrTwo (n : Nat) : Bool := n = 1 || n = 2
def widthFour (n : Nat) : Bool := n = 4

/-- The anchored regex `^(\d{w1})sep(\d{w2})sep(\d{w3})$` as used by
`parseDate`: exactly three all-digit components of the given widths. -/
def matchThree (sep : Char) (w1 w2 w3 : Nat → Bool) (t : Str) :
    Option (Nat × Nat × Nat) :=
  match splitOnChar sep t with
  | [a, b, c] =>
    if allDigits a && w1 a.length && allDigits b && w2 b.length &&
        allDigits c && w3 c.length then
      some (digitsToNat a, digitsToNat b, digitsToNat c)
    else none
  | _ => none

/-- `DD-MM-YYYY` candidate of `parseDate` (match + validation). -/
def tryDMYdash (t : Str) : Option CalDate :=
  match matchThree '-' widthOneOrTwo widthOneOrTwo widthFour t with
  | some (d, m, y) => checkedDate d m y
  | none => none

/-- `DD/MM/YYYY` candidate of `parseDate`. -/
def tryDMYslash (t : Str) : Option CalDate :=
  match matchThree '/' widthOneOrTwo widthOneOrTwo widthFour t with
  | some (d, m, y) => checkedDate d m y
  | none => none

/-- `YYYY-MM-DD` fallback candidate of `parseDate`. -/
def tryISO (t : Str) : Option CalDate :=
  match matchThree '-' widthFour widthOneOrTwo widthOneOrTwo t with
  | some (y, m, d) => checkedDate d m y
  | none => none

/-- `parseDate` from `App.tsx` (`parseCSV`'s date helper).  Returns the parsed
date together with a flag that is `true` exactly on the paths where the source
logs a warning and substitutes the current date (`now`). -/
def parseDate (now : CalDate) (s : Str) : CalDate × Bool :=
  if s = [] || trimL s = [] then (now, true)
  else
    let t := trimL s
    match tryDMYdash t with
    | some d => (d, false)
    | none =>
      match tryDMYslash t with
      | some d => (d, false)
      | none =>
        match tryISO t with
        | some d => (d, false)
        | none => (now, true)

/-- Decimal rendering of a `Nat` (used only to synthesise the opaque ids that
the source draws from `Date.now()`/`Math.random()`). -/
def natChars (fuel n : Nat) : Str :=
  match fuel with
  | 0 => []
  | f + 1 =>
    if n < 10 then [Nat.digitChar n]
    else natChars f (n / 10) ++ [Nat.digitChar (n % 10)]

def natStr (n : Nat) : Str := natChars n n

/-! ## Data model (`src/main/main.ts` interfaces) -/

structure SermonVersion where
  id : Str
  version : Nat
  title : Str
  date : CalDate
  changes : Str
  filePath : Str
deriving DecidableEq, Repr

structure PInstance where
  id : Str
  date : CalDate
  location : Str
  audience : Option Str := none
  notes : Option Str := none
deriving DecidableEq, Repr

structure Sermon where
  id : Str
  title : Str
  date : CalDate
  series : Option Str := none
  seriesOrder : Option Nat := none
  tags : List Str := []
  summary : Option Str := none
  references : Option (List Str) := none
  filePath : Option Str := none
  fileSize : Option Nat := none
  lastModified : Option CalDate := none
  versions : Option (List SermonVersion) := none
  preachingHistory : Option (List PInstance) := none
  image : Option Str := none
  type : Option Str := none
  place : Option Str := none
deriving DecidableEq, Repr

structure Series where
  id : Str
  title : Str
  description : Option Str := none
  startDate : Option CalDate := none
  endDate : Option CalDate := none
  sermons : List Str := []
  tags : List Str := []
deriving DecidableEq, Repr

structure ExpandedSermon extends Sermon where
  originalDate : CalDate
  preachingInstance : Option PInstance
deriving DecidableEq, Repr

/-! ## CSV line splitting (`parseCSVLine` in `App.tsx`) -/

/-- The character loop of `parseCSVLine`: `current` is the field accumulator
and `inQuotes` the quoting state. -/
def pclAux : Str → Str → Bool → List Str
  | [], current, _ => [trimL current]
  | '"' :: '"' :: rest2, current, true => pclAux rest2 (current ++ ['"']) true
  | '"' :: rest, current, true => pclAux rest current false
  | '"' :: rest, current, false => pclAux rest current true
  | c :: rest, current, inQuotes =>
    if c = ',' && !inQuotes then trimL current :: pclAux rest [] inQuotes
    else pclAux rest (current ++ [c]) inQuotes

def parseCSVLine (line : Str) : List Str := pclAux line [] false

/-! ## Header detection (`getColumnIndex` / `columnMap` in `parseCSV`) -/

/-- `getColumnIndex` from `parseCSV`: for each candidate name in order, take
the first header containing it (case-insensitively); `none` models `-1`. -/
def getColumnIndex (headers : List Str) : List Str → Option Nat
  | [] => none
  | n :: rest =>
    match headers.findIdx? (fun h => strIncludes h (strLower n)) with
    | some i => some i
    | none => getColumnIndex headers rest

structure ColumnMap where
  title : Option Nat
  date : Option Nat
  series : Option Nat
  summary : Option Nat
  tags : Option Nat
  references : Option Nat
  type : Option Nat
  place : Option Nat
deriving DecidableEq, Repr

def titleCandidates : List Str := ["title".data, "sermon".data, "name".data, "subject".data]
def dateCandidates : List Str := ["date".data, "preached".data, "when".data, "time".data]
def seriesCandidates : List Str := ["series".data, "collection".data, "group".data]
def summaryCandidates : List Str := ["summary".data, "description".data, "notes".data, "content".data]
def tagsCandidates : List Str := ["tags".data, "keywords".data, "categories".data]
def referencesCandidates : List Str := ["references".data, "scripture".data, "verses".data, "bible".data]
def typeCandidates : List Str := ["type".data, "category".data, "kind".data]
def placeCandidates : List Str := ["place".data, "location".data, "venue".data, "church".data]

def buildColumnMap (headers : List Str) : ColumnMap :=
  { title := getColumnIndex headers titleCandidates,
    date := getColumnIndex headers dateCandidates,
    series := getColumnIndex headers seriesCandidates,
    summary := getColumnIndex headers summaryCandidates,
    tags := getColumnIndex headers tagsCandidates,
    references := getColumnIndex headers referencesCandidates,
    type := getColumnIndex headers typeCandidates,
    place := getColumnIndex headers placeCandidates }

/-- `getValue` from `parseCSV`: out-of-range or empty cells fall back to the
default value. -/
def getValue (values : List Str) (idx : Option Nat) (dflt : Str) : Str :=
  match idx with
  | none => dflt
  | some i =>
    match values.get? i with
    | none => dflt
    | some v => if v.isEmpty then dflt else v

/-! ## Row import (`parseCSV` in `App.tsx`) -/

def jsOrStr (a b : Str) : Str := if a.isEmpty then b else a

/-- JS `arr.reduce((earliest, instance) => instance.date < earliest.date ?
instance : earliest)` (no initial value: `cur` is the first element). -/
def reduceEarliestI (cur : PInstance) : List PInstance → PInstance
  | [] => cur
  | i :: rest => reduceEarliestI (if i.date.ltb cur.date then i else cur) rest

/-- JS `arr.reduce((latest, instance) => instance.date > latest.date ?
instance : latest, arr[0])`. -/
def reduceLatestI (cur : PInstance) : List PInstance → PInstance
  | [] => cur
  | i :: rest => reduceLatestI (if cur.date.ltb i.date then i else cur) rest

/-- JS `s.split(';').filter(t => t.length > 0)`. -/
def splitSemi (s : Str) : List Str :=
  (splitOnChar ';' s).filter (fun t => 0 < t.length)

/-- The body of `parseCSV`'s data-row loop for one row (`values` is already
quote-stripped). `i` is the row index, used only to synthesise ids. -/
def processRow (cmap : ColumnMap) (now : CalDate) (i : Nat)
    (acc : List Sermon) (values : List Str) : List Sermon :=
  if values.all (fun v => v.isEmpty) then acc
  else
    let dateValue := getValue values cmap.date []
    let sermonDate := (parseDate now dateValue).1
    let locationValue := getValue values cmap.place "Unknown Location".data
    let referencesValue := getValue values cmap.references []
    let typeValue := getValue values cmap.type []
    let title := getValue values cmap.title "Untitled".data
    match acc.findIdx? (fun s => strLower s.title = strLower title) with
    | some j =>
      acc.modify (fun s =>
        let history := s.preachingHistory.getD [] ++
          [{ id := natStr i, date := sermonDate, location := locationValue : PInstance }]
        let earliestDate :=
          (match history with
           | [] => sermonDate
           | h :: t => (reduceEarliestI h t).date)
        { s with preachingHistory := some history, date := earliestDate }) j
    | none =>
      acc ++
        [{ id := 's' :: natStr i,
           title := title,
           date := sermonDate,
           series := if (getValue values cmap.series []).isEmpty then none
                     else some (getValue values cmap.series []),
           summary := some (getValue values cmap.summary []),
           tags := if (getValue values cmap.tags []).isEmpty then []
                   else splitSemi (getValue values cmap.tags []),
           references := some (if referencesValue.isEmpty then [] else splitSemi referencesValue),
           type := some typeValue,
           place := some locationValue,
           preachingHistory := some [{ id := natStr i, date := sermonDate,
                                       location := locationValue : PInstance }] }]

/-- The preaching instance `parseCSV` appends when merging a duplicate-titled
row. -/
def mergeInstance (cmap : ColumnMap) (now : CalDate) (i : Nat)
    (values : List Str) : PInstance :=
  { id := natStr i,
    date := (parseDate now (getValue values cmap.date [])).1,
    location := getValue values cmap.place "Unknown Location".data }

/-- The update `parseCSV` applies to the existing sermon when merging a
duplicate-titled row: append the new instance and recompute the date as the
earliest instance date.  Every other field, `place` included, is left
unchanged. -/
def mergeUpd (cmap : ColumnMap) (now : CalDate) (i : Nat)
    (values : List Str) (s : Sermon) : Sermon :=
  let history := s.preachingHistory.getD [] ++ [mergeInstance cmap now i values]
  let earliestDate :=
    (match history with
     | [] => (parseDate now (getValue values cmap.date [])).1
     | h :: t => (reduceEarliestI h t).date)
  { s with preachingHistory := some history, date := earliestDate }

/-- The `for (let i = 1; i < lines.length; i++)` loop of `parseCSV`. -/
def importRows (cmap : ColumnMap) (now : CalDate) :
    Nat → List Sermon → List Str → List Sermon
  | _, acc, [] => acc
  | i, acc, line :: rest =>
    importRows cmap now (i + 1)
      (processRow cmap now i acc ((parseCSVLine line).map removeQuotes)) rest

/-- `parseCSV` from `App.tsx`.  `now` stands for the environment's current
date (`new Date()`), used as the fallback for unparseable date cells. -/
def parseCSV (now : CalDate) (csvContent : Str) : List Sermon :=
  let lines := splitOnChar '\n' (trimL csvContent)
  if lines.length < 2 then []
  else
    match lines with
    | [] => []
    | headerLine :: dataLines =>
      let headers := (parseCSVLine headerLine).map (fun h => strLower (removeQuotes h))
      importRows (buildColumnMap headers) now 1 [] dataLines

/-! ## CSV export (`sermonsToCsv` in `App.tsx`) -/

def twoDigits (n : Nat) : Str := [Nat.digitChar (n / 10), Nat.digitChar (n % 10)]

def fourDigits (n : Nat) : Str :=
  [Nat.digitChar (n / 1000), Nat.digitChar (n / 100 % 10),
   Nat.digitChar (n / 10 % 10), Nat.digitChar (n % 10)]

/-- `date.toISOString().split('T')[0]` for the day-precision dates this
program stores (years 1000–9999). -/
def formatISO (d : CalDate) : Str :=
  fourDigits d.year ++ '-' :: (twoDigits d.month ++ '-' :: twoDigits d.day)

def quoteField (s : Str) : Str := '"' :: (s ++ ['"'])

/-- The eight raw field values of a sermon's export row, in column order. -/
def rowFields (s : Sermon) : List Str :=
  [s.title, formatISO s.date, s.series.getD [], s.summary.getD [],
   List.intercalate [';'] s.tags, List.intercalate [';'] (s.references.getD []),
   s.type.getD [], s.place.getD []]

def csvRow (s : Sermon) : Str :=
  List.intercalate [',']
    [quoteField s.title, quoteField (formatISO s.date),
     quoteField (s.series.getD []), quoteField (s.summary.getD []),
     quoteField (List.intercalate [';'] s.tags),
     quoteField (List.intercalate [';'] (s.references.getD [])),
     quoteField (s.type.getD []), quoteField (s.place.getD [])]

def csvHeaderLine : Str := "Title,Date,Series,Summary,Tags,References,Type,Place".data

def sermonsToCsv (ss : List Sermon) : Str :=
  List.intercalate ['\n'] (csvHeaderLine :: ss.map csvRow)

/-! ## Saving from the edit form (`handleSave` in `SermonDetailsModal.tsx`) -/

structure FormData where
  title : Option Str := none
  date : Option CalDate := none
  series : Option Str := none
  seriesOrder : Option Nat := none
  summary : Option Str := none
  type : Option Str := none
  place : Option Str := none
  tags : Option (List Str) := none
  references : Option (List Str) := none
  image : Option Str := none
  preachingHistory : Option (List PInstance) := none
deriving DecidableEq, Repr

/-- The `preachingHistory` local of `handleSave`: the form's history, or a
single synthesized instance from the form's date/place for a new sermon
without history. -/
def handleSavePH (fd : FormData) (sermon : Option Sermon) (now : CalDate)
    (newInstId : Str) : List PInstance :=
  if sermon.isNone && (fd.preachingHistory.getD []).isEmpty then
    [{ id := newInstId, date := fd.date.getD now,
       location := jsOrStr (fd.place.getD []) "Unknown Location".data : PInstance }]
  else fd.preachingHistory.getD []

/-- The `firstDate` local of `handleSave`: the reduce over the history with
initial accumulator `preachingHistory[0].date`. -/
def firstDateOf (ph : List PInstance) (dflt : CalDate) : CalDate :=
  match ph with
  | [] => dflt
  | h :: t => (h :: t).foldl (fun e i => if i.date.ltb e then i.date else e) h.date

/-- The `firstPlace` local of `handleSave`:
`firstInstance?.location || formData.place || 'Unknown Location'`. -/
def firstPlaceOf (ph : List PInstance) (firstDate : CalDate) (fdPlace : Option Str) : Str :=
  jsOrStr
    (match ph.find? (fun i => i.date = firstDate) with
     | some i => i.location
     | none => [])
    (jsOrStr (fdPlace.getD []) "Unknown Location".data)

/-- `handleSave` from `SermonDetailsModal.tsx`: builds the sermon handed to
`onSave`. `sermon` is the sermon being edited (`none` for a new sermon);
`newInstId`/`newSermonId` stand for the `Date.now()`-derived fresh ids. -/
def handleSave (fd : FormData) (sermon : Option Sermon) (now : CalDate)
    (newInstId newSermonId : Str) : Sermon :=
  let ph := handleSavePH fd sermon now newInstId
  let firstDate := firstDateOf ph (fd.date.getD now)
  let firstPlace := firstPlaceOf ph firstDate fd.place
  { id := match sermon with | some s => s.id | none => newSermonId,
    title := jsOrStr (fd.title.getD []) "Untitled Sermon".data,
    date := firstDate,
    series := fd.series,
    seriesOrder := fd.seriesOrder,
    summary := fd.summary,
    type := fd.type,
    place := some firstPlace,
    tags := fd.tags.getD [],
    references := some (fd.references.getD []),
    image := fd.image,
    versions := sermon.bind (·.versions),
    preachingHistory := some ph,
    filePath := sermon.bind (·.filePath),
    fileSize := sermon.bind (·.fileSize),
    lastModified := sermon.bind (·.lastModified) }

/-! ## Series reconciler and deletion (`App.tsx`) -/

/-- The `usedSeriesNames` set of `cleanupOrphanedSeries`: series titles
referenced by a sermon whose `series` field is set and not blank. -/
def usedSeriesNames (sermons : List Sermon) : List Str :=
  (sermons.filter (fun s =>
      match s.series with
      | some t => !(trimL t).isEmpty
      | none => false)).map
    (fun s => s.series.getD [])

def demoSeriesNames : List Str := ["Faith Series".data, "Love Series".data]

/-- `cleanupOrphanedSeries` from `App.tsx`, including the special-cased branch
for the hardcoded demo titles. -/
def cleanupOrphanedSeries (sermons : List Sermon) (seriesList : List Series) :
    List Series :=
  let usedNames := usedSeriesNames sermons
  seriesList.filter (fun sr =>
    if demoSeriesNames.contains sr.title then usedNames.contains sr.title
    else usedNames.contains sr.title)

/-- `handleDeleteSermon` from `App.tsx`: remove the sermon, then reconcile
the series list against the remaining sermons. -/
def handleDeleteSermon (sermonId : Str) (sermons : List Sermon)
    (seriesList : List Series) : List Sermon × List Series :=
  let updatedSermons := sermons.filter (fun s => s.id ≠ sermonId)
  (updatedSermons, cleanupOrphanedSeries updatedSermons seriesList)

/-! ## View projections (`expandedSermons` in `App.tsx`) -/

inductive ViewMode | list | grid | details
deriving DecidableEq, Repr

/-- Details-mode rows for one sermon: one `ExpandedSermon` per preaching
instance, or a single row from the sermon's own fields. -/
def sermDetailsRows (s : Sermon) : List ExpandedSermon :=
  match s.preachingHistory with
  | some (h :: t) =>
    (h :: t).map (fun inst =>
      { toSermon := { s with id := s.id ++ '-' :: inst.id, date := inst.date, place := some inst.location },
        originalDate := s.date,
        preachingInstance := some inst })
  | _ =>
    [{ toSermon := { s with place := some (s.place.getD []) },
       originalDate := s.date,
       preachingInstance := none }]

/-- List/grid-mode row for one sermon: the most recent preaching instance's
date and location, or the sermon's own fields. -/
def sermCollapsedRow (s : Sermon) : ExpandedSermon :=
  match s.preachingHistory with
  | some (h :: t) =>
    let latest := reduceLatestI h (h :: t)
    { toSermon := { s with date := latest.date, place := some latest.location },
      originalDate := s.date,
      preachingInstance := some latest }
  | _ =>
    { toSermon := { s with place := some (s.place.getD []) },
      originalDate := s.date,
      preachingInstance := none }

/-- `expandedSermons` from `App.tsx`: the details-mode projection sorts all
instance rows chronologically (JS `sort` is a stable merge sort on the
`getTime` comparator); list/grid mode maps each sermon to one row. -/
def expandedSermons (mode : ViewMode) (ss : List Sermon) : List ExpandedSermon :=
  if mode = ViewMode.details then
    List.mergeSort (ss.flatMap sermDetailsRows) (fun a b => a.date.leb b.date)
  else ss.map sermCollapsedRow

/-! ## Specification-side definitions

These definitions restate parts of the specification in their own words; the
claims are stated by comparing them with the embedded source functions. -/

/-- A day/month/year triple that denotes a real calendar date in the range the
importer accepts. -/
def validInRange (d : CalDate) : Prop :=
  1900 ≤ d.year ∧ d.year ≤ 2100 ∧ 1 ≤ d.month ∧ d.month ≤ 12 ∧
    1 ≤ d.day ∧ d.day ≤ daysInMonth d.year d.month

instance (d : CalDate) : Decidable (validInRange d) := by
  unfold validInRange; infer_instance

/-- `d` is the minimum of the dates of the instances in `l`. -/
def isMinDateOf (d : CalDate) (l : List PInstance) : Prop :=
  d ∈ l.map PInstance.date ∧ ∀ i ∈ l, d.leb i.date = true

/-- `d` is the maximum of the dates of the instances in `l`. -/
def isMaxDateOf (d : CalDate) (l : List PInstance) : Prop :=
  d ∈ l.map PInstance.date ∧ ∀ i ∈ l, i.date.leb d = true

def firstSomeDate : List (Option CalDate) → Option CalDate
  | [] => none
  | some d :: _ => some d
  | none :: rest => firstSomeDate rest

/-- The date-parser contract as the specification words it: try
`DD-MM-YYYY`, then `DD/MM/YYYY`, then `YYYY-MM-DD`, each candidate accepted
only if it passes the bounds and round-trip validation; if no format yields a
valid date, fall back to the current date with a warning. -/
def specParseDate (now : CalDate) (s : Str) : CalDate × Bool :=
  match firstSomeDate [tryDMYdash (trimL s), tryDMYslash (trimL s), tryISO (trimL s)] with
  | some d => (d, false)
  | none => (now, true)

/-- The claim's reading of header matching: the first header cell containing
any of the candidate substrings wins. -/
def firstHeaderWithAny (headers names : List Str) : Option Nat :=
  headers.findIdx? (fun h => names.any (fun n => strIncludes h (strLower n)))

/-- Header matching as the source implements it, restated: candidates are
tried in order, and for each candidate the first header containing it wins. -/
def candidateOrderIndex (headers : List Str) : List Str → Option Nat
  | [] => none
  | n :: rest =>
    (headers.findIdx? (fun h => strIncludes h (strLower n))).or
      (candidateOrderIndex headers rest)

/-- The `ColumnMap` of an import whose header row matched no candidate at
all. -/
def cmapNone : ColumnMap :=
  { title := none, date := none, series := none, summary := none,
    tags := none, references := none, type := none, place := none }

/-- The series reconciler as the specification words it: keep exactly the
series whose title is referenced by at least one sermon's non-blank `series`
field. -/
def reconcileSeriesSpec (sermons : List Sermon) (seriesList : List Series) :
    List Series :=
  seriesList.filter (fun sr => (usedSeriesNames sermons).contains sr.title)

/-- The fields of a sermon the CSV round-trip claim talks about, as exported. -/
def outFields (s : Sermon) :
    Str × CalDate × Option Str × List Str × Option (List Str) × Option Str × Option Str :=
  (s.title, s.date, s.series, s.tags, s.references, s.type, s.place)

/-- The same fields as the re-import materialises them (an absent
references/type field reimports as present-but-empty). -/
def inFields (s : Sermon) :
    Str × CalDate × Option Str × List Str × Option (List Str) × Option Str × Option Str :=
  (s.title, s.date, s.series, s.tags, some (s.references.getD []),
    some (s.type.getD []), s.place)

/-- A field value the CSV codec transports verbatim: no quote/newline
characters and already trimmed. -/
def cleanField (f : Str) : Prop :=
  (∀ c ∈ f, c ≠ '"' ∧ c ≠ '\n' ∧ c ≠ '\r') ∧ trimL f = f

instance (f : Str) : Decidable (cleanField f) := by
  unfold cleanField; infer_instance

/-- A tag or scripture-reference item: clean, non-empty and free of the `;`
join separator. -/
def cleanItem (t : Str) : Prop :=
  cleanField t ∧ t ≠ [] ∧ ∀ c ∈ t, c ≠ ';'

instance (t : Str) : Decidable (cleanItem t) := by
  unfold cleanItem; infer_instance

/-- An optional field that is either absent or a clean non-empty string. -/
def cleanOptNE (o : Option Str) : Prop :=
  match o with
  | none => True
  | some t => cleanField t ∧ t ≠ []

instance (o : Option Str) : Decidable (cleanOptNE o) :=
  match o with
  | none => Decidable.isTrue trivial
  | some t => inferInstanceAs (Decidable (cleanField t ∧ t ≠ []))

/-- A sermon whose exported row the importer maps back onto the same field
values (the hypotheses of the amended round-trip claim). -/
def cleanSermon (s : Sermon) : Prop :=
  cleanField s.title ∧ s.title ≠ [] ∧
  validInRange s.date ∧
  cleanOptNE s.series ∧
  cleanField (s.summary.getD []) ∧
  (∀ t ∈ s.tags, cleanItem t) ∧
  (∀ r ∈ s.references.getD [], cleanItem r) ∧
  cleanField (s.type.getD []) ∧
  s.place ≠ none ∧ cleanOptNE s.place ∧ s.place ≠ some []

instance (s : Sermon) : Decidable (cleanSermon s) := by
  unfold cleanSermon; infer_instance

/-- The sermon that `parseCSV` builds from the exported row of `s` (row
index `i`) when no earlier sermon shares its title. -/
def importedOf (i : Nat) (s : Sermon) : Sermon :=
  { id := 's' :: natStr i,
    title := s.title,
    date := s.date,
    series := s.series,
    summary := some (s.summary.getD []),
    tags := s.tags,
    references := some (s.references.getD []),
    type := some (s.type.getD []),
    place := some (s.place.getD []),
    preachingHistory :=
      some [{ id := natStr i, date := s.date, location := s.place.getD [] : PInstance }] }

/-- The column map produced by the export's own header row. -/
def stdColumnMap : ColumnMap :=
  buildColumnMap ((parseCSVLine csvHeaderLine).map (fun h => strLower (removeQuotes h)))

/-! ## Concrete data used in scenario theorems and witnesses -/

/-- The only sermon referencing the series "Faith Series". -/
def faithSermon : Sermon :=
  { id := "s1".data, title := "Trust".data, date := ⟨2024, 1, 1⟩,
    series := some "Faith Series".data }

def faithSeries : Series :=
  { id := "ser1".data, title := "Faith Series".data }

/-- The two-row duplicate-title import file from the specification. -/
def hopeCsv : Str :=
  "Title,Date,Summary\n\"Hope\",\"05-01-2025\",\"x\"\n\"Hope\",\"01-12-2024\",\"y\"".data

/-- A duplicate-title import file whose second, earlier-dated row names a
different place than the first. -/
def hopePlaceCsv : Str :=
  "Title,Date,Place\n\"Hope\",\"05-01-2025\",\"Alpha\"\n\"Hope\",\"01-12-2024\",\"Beta\"".data

/-- An import file whose first data row has an invalid day-of-month. -/
def badDateCsv : Str :=
  "Title,Date\n\"A\",\"30-02-2025\"\n\"B\",\"01-12-2024\"".data

def instA : PInstance :=
  { id := "i1".data, date := ⟨2025, 1, 5⟩, location := "Alpha".data }

def instB : PInstance :=
  { id := "i2".data, date := ⟨2024, 12, 1⟩, location := "Beta".data }

/-- A sermon with a two-instance preaching history. -/
def histSermon : Sermon :=
  { id := "hs".data, title := "Hist".data, date := ⟨2024, 12, 1⟩,
    place := some "Beta".data, preachingHistory := some [instA, instB] }

/-- Edit-form data with a two-instance preaching history. -/
def histForm : FormData :=
  { title := some "Hist".data, preachingHistory := some [instA, instB] }

/-- A fully-populated sermon whose fields are CSV-safe (witness for the
amended round-trip claim). -/
def roundTripSermon : Sermon :=
  { id := "rt".data, title := "Hope".data, date := ⟨2025, 1, 5⟩,
    series := some "Faith".data, summary := some "hello world".data,
    tags := ["grace".data, "faith".data],
    references := some ["John 3:16".data],
    type := some "Sunday".data, place := some "Zion".data }

/-- A sermon carrying the importer's default title (used to exercise the
duplicate-title merge with a header-less column map). -/
def untitledSermon : Sermon :=
  { id := "u1".data, title := "Untitled".data, date := ⟨2024, 6, 1⟩,
    place := some "Home".data,
    preachingHistory := some [{ id := "u1i".data, date := ⟨2024, 6, 1⟩,
                                location := "Home".data }] }

/-- Two sermons with the same title and different dates (a round-trip
counterexample: the import merges them into one sermon). -/
def dupTitleSermons : List Sermon :=
  [{ id := "a".data, title := "Hope".data, date := ⟨2025, 1, 5⟩,
     place := some "Zion".data },
   { id := "b".data, title := "Hope".data, date := ⟨2024, 12, 1⟩,
     place := some "Salem".data }]


/-! # Theorems -/

/-! ## Series reconciler (claims C6, C7, C10) -/

/-- Both branches of `cleanupOrphanedSeries` test the same predicate, so the
whole function is the plain keep-if-referenced filter. -/
theorem cleanup_eq_filter (sermons : List Sermon) (seriesList : List Series) :
    cleanupOrphanedSeries sermons seriesList = reconcileSeriesSpec sermons seriesList := by
  unfold cleanupOrphanedSeries reconcileSeriesSpec
  simp

/-- C10: for every sermon list and series list, `cleanupOrphanedSeries` is
extensionally equal to the plain filter keeping exactly the series whose title
is referenced by some sermon's non-blank series field; the special-cased demo
branch has no behavioral effect. -/
theorem c10_cleanup_is_plain_filter (sermons : List Sermon) (seriesList : List Series) :
    cleanupOrphanedSeries sermons seriesList = reconcileSeriesSpec sermons seriesList :=
  cleanup_eq_filter sermons seriesList

/-- C6: the series reconciler is idempotent. -/
theorem c6_cleanup_idempotent (s : List Sermon) (q : List Series) :
    cleanupOrphanedSeries s (cleanupOrphanedSeries s q) = cleanupOrphanedSeries s q := by
  rw [cleanup_eq_filter, cleanup_eq_filter, reconcileSeriesSpec, reconcileSeriesSpec,
    List.filter_filter]
  simp

/-- C7: after deleting a sermon the series collection is exactly the original
list filtered to the titles still referenced by a remaining sermon's non-blank
series field (hence a sublist: nothing is created), and deleting the only
sermon referencing "Faith Series" leaves no series with that title. -/
theorem c7_delete_prunes_orphans :
    (∀ sid ss qs, (handleDeleteSermon sid ss qs).2 =
        qs.filter (fun sr =>
          (usedSeriesNames (handleDeleteSermon sid ss qs).1).contains sr.title)) ∧
    (∀ sid ss qs, ((handleDeleteSermon sid ss qs).2).Sublist qs) ∧
    ((handleDeleteSermon faithSermon.id [faithSermon] [faithSeries]).2.all
        (fun sr => !(sr.title = "Faith Series".data)) = true) := by
  refine ⟨fun sid ss qs => ?_, fun sid ss qs => ?_, by decide⟩
  · show cleanupOrphanedSeries _ _ = _
    rw [cleanup_eq_filter]; rfl
  · show (cleanupOrphanedSeries _ _).Sublist _
    rw [cleanup_eq_filter]
    exact List.filter_sublist _

/-! ## Date order lemmas -/

theorem CalDate.leb_refl (a : CalDate) : a.leb a = true := by
  simp [CalDate.leb, CalDate.ltb]

theorem CalDate.leb_trans {a b c : CalDate} (h1 : a.leb b = true)
    (h2 : b.leb c = true) : a.leb c = true := by
  simp only [CalDate.leb, CalDate.ltb, Bool.not_eq_true', Bool.or_eq_false_iff,
    Bool.and_eq_false_iff, decide_eq_false_iff_not, decide_eq_true_eq] at h1 h2 ⊢
  omega

theorem CalDate.leb_total (a b : CalDate) : a.leb b = true ∨ b.leb a = true := by
  simp only [CalDate.leb, CalDate.ltb, Bool.not_eq_true', Bool.or_eq_false_iff,
    Bool.and_eq_false_iff, decide_eq_false_iff_not, decide_eq_true_eq]
  omega

theorem CalDate.ltb_to_leb {a b : CalDate} (h : a.ltb b = true) : a.leb b = true := by
  simp only [CalDate.ltb, Bool.or_eq_true, Bool.and_eq_true, decide_eq_true_eq] at h
  simp only [CalDate.leb, CalDate.ltb, Bool.not_eq_true', Bool.or_eq_false_iff,
    Bool.and_eq_false_iff, decide_eq_false_iff_not, decide_eq_true_eq]
  omega

theorem CalDate.not_ltb_to_leb {a b : CalDate} (h : a.ltb b = false) :
    b.leb a = true := by
  simp [CalDate.leb, h]

/-! ## Fold lemmas for the earliest/latest instance computations -/

theorem reduceLatestI_mem (l : List PInstance) :
    ∀ cur, reduceLatestI cur l ∈ cur :: l := by
  induction l with
  | nil => intro cur; simp [reduceLatestI]
  | cons j rest ih =>
    intro cur
    rw [reduceLatestI]
    by_cases hc : cur.date.ltb j.date = true
    · rw [if_pos hc]
      have h := ih j
      simp only [List.mem_cons] at h ⊢; tauto
    · rw [if_neg hc]
      have h := ih cur
      simp only [List.mem_cons] at h ⊢; tauto

theorem reduceLatestI_ge (l : List PInstance) :
    ∀ cur, ∀ i ∈ cur :: l, i.date.leb (reduceLatestI cur l).date = true := by
  induction l with
  | nil =>
    intro cur i hi
    simp only [List.mem_cons, List.not_mem_nil, or_false] at hi
    subst hi; simp [reduceLatestI, CalDate.leb_refl]
  | cons j rest ih =>
    intro cur i hi
    rw [reduceLatestI]
    simp only [List.mem_cons] at hi
    by_cases hc : cur.date.ltb j.date = true
    · rw [if_pos hc]
      have ihh := ih j
      rcases hi with h1 | h1 | h1
      · rw [h1]
        exact CalDate.leb_trans (CalDate.ltb_to_leb hc) (ihh j (by simp))
      · rw [h1]; exact ihh j (by simp)
      · exact ihh i (by simp [h1])
    · rw [if_neg hc]
      have ihh := ih cur
      rcases hi with h1 | h1 | h1
      · rw [h1]; exact ihh cur (by simp)
      · rw [h1]
        exact CalDate.leb_trans
          (CalDate.not_ltb_to_leb (Bool.eq_false_iff.mpr hc)) (ihh cur (by simp))
      · exact ihh i (by simp [h1])

theorem reduceEarliestI_mem (l : List PInstance) :
    ∀ cur, reduceEarliestI cur l ∈ cur :: l := by
  induction l with
  | nil => intro cur; simp [reduceEarliestI]
  | cons j rest ih =>
    intro cur
    rw [reduceEarliestI]
    by_cases hc : j.date.ltb cur.date = true
    · rw [if_pos hc]
      have h := ih j
      simp only [List.mem_cons] at h ⊢; tauto
    · rw [if_neg hc]
      have h := ih cur
      simp only [List.mem_cons] at h ⊢; tauto

theorem reduceEarliestI_le (l : List PInstance) :
    ∀ cur, ∀ i ∈ cur :: l, (reduceEarliestI cur l).date.leb i.date = true := by
  induction l with
  | nil =>
    intro cur i hi
    simp only [List.mem_cons, List.not_mem_nil, or_false] at hi
    subst hi; simp [reduceEarliestI, CalDate.leb_refl]
  | cons j rest ih =>
    intro cur i hi
    rw [reduceEarliestI]
    simp only [List.mem_cons] at hi
    by_cases hc : j.date.ltb cur.date = true
    · rw [if_pos hc]
      have ihh := ih j
      rcases hi with h1 | h1 | h1
      · rw [h1]
        exact CalDate.leb_trans (ihh j (by simp)) (CalDate.ltb_to_leb hc)
      · rw [h1]; exact ihh j (by simp)
      · exact ihh i (by simp [h1])
    · rw [if_neg hc]
      have ihh := ih cur
      rcases hi with h1 | h1 | h1
      · rw [h1]; exact ihh cur (by simp)
      · rw [h1]
        exact CalDate.leb_trans (ihh cur (by simp))
          (CalDate.not_ltb_to_leb (Bool.eq_false_iff.mpr hc))
      · exact ihh i (by simp [h1])

/-- The earliest-instance reduce of a non-empty history computes the minimum
instance date. -/
theorem reduceEarliestI_isMin (h : PInstance) (t : List PInstance) :
    isMinDateOf (reduceEarliestI h t).date (h :: t) := by
  constructor
  · exact List.mem_map_of_mem PInstance.date (reduceEarliestI_mem t h)
  · exact reduceEarliestI_le t h

/-- The latest-instance reduce over a whole history (initial accumulator
`history[0]`) computes the maximum instance date. -/
theorem reduceLatestI_isMax (h : PInstance) (t : List PInstance) :
    isMaxDateOf (reduceLatestI h (h :: t)).date (h :: t) := by
  constructor
  · have hm := reduceLatestI_mem (h :: t) h
    simp only [List.mem_cons] at hm
    rcases hm with h1 | h1 | h1
    · exact List.mem_map_of_mem PInstance.date (by rw [h1]; exact List.mem_cons_self h t)
    · exact List.mem_map_of_mem PInstance.date (by rw [h1]; exact List.mem_cons_self h t)
    · exact List.mem_map_of_mem PInstance.date (List.mem_cons_of_mem h h1)
  · intro i hi
    exact reduceLatestI_ge (h :: t) h i (List.mem_cons_of_mem h hi)

/-! ## View projections (claim C5) -/

theorem sermDetailsRows_length (s : Sermon) :
    (sermDetailsRows s).length = max 1 (s.preachingHistory.getD []).length := by
  rcases hph : s.preachingHistory with _ | l
  · simp [sermDetailsRows, hph]
  · rcases l with _ | ⟨h, t⟩
    · simp [sermDetailsRows, hph]
    · simp [sermDetailsRows, hph]

/-- C5: the details-mode projection yields `max 1 |history|` rows per sermon
(one per preaching instance, with that instance's date and place, or a single
row from the sermon's own fields), sorted ascending by date and containing
exactly the per-sermon rows; the list/grid projection yields exactly one row
per sermon, carrying the latest-dated instance's date and location when the
history is non-empty and the sermon's own fields otherwise. -/
theorem c5_projection_shapes :
    (∀ ss : List Sermon,
        (expandedSermons ViewMode.details ss).length =
          (ss.map (fun s => max 1 (s.preachingHistory.getD []).length)).sum) ∧
    (∀ ss : List Sermon,
        (expandedSermons ViewMode.details ss).Pairwise
          (fun a b => a.date.leb b.date = true)) ∧
    (∀ ss : List Sermon,
        (expandedSermons ViewMode.details ss).Perm (ss.flatMap sermDetailsRows)) ∧
    (∀ s : Sermon, ∀ l, s.preachingHistory = some l → l ≠ [] →
        (sermDetailsRows s).map (fun r => (r.date, r.place, r.preachingInstance)) =
          l.map (fun i => (i.date, some i.location, some i))) ∧
    (∀ s : Sermon, (s.preachingHistory.getD []) = [] →
        (sermDetailsRows s).map (fun r => (r.date, r.place, r.preachingInstance)) =
          [(s.date, some (s.place.getD []), none)]) ∧
    (∀ mode ss, mode ≠ ViewMode.details →
        expandedSermons mode ss = ss.map sermCollapsedRow) ∧
    (∀ s : Sermon, ∀ l, s.preachingHistory = some l → l ≠ [] →
        ∃ inst ∈ l, isMaxDateOf inst.date l ∧
          (sermCollapsedRow s).date = inst.date ∧
          (sermCollapsedRow s).place = some inst.location ∧
          (sermCollapsedRow s).preachingInstance = some inst) ∧
    (∀ s : Sermon, (s.preachingHistory.getD []) = [] →
        (sermCollapsedRow s).date = s.date ∧
        (sermCollapsedRow s).place = some (s.place.getD [])) := by
  refine ⟨fun ss => ?_, fun ss => ?_, fun ss => ?_, fun s l hsome hne => ?_,
    fun s hemp => ?_, fun mode ss hmode => ?_, fun s l hsome hne => ?_,
    fun s hemp => ?_⟩
  · show (List.mergeSort _ _).length = _
    rw [List.length_mergeSort, List.flatMap, List.length_flatten, List.map_map]
    exact congrArg List.sum (List.map_congr_left fun s _ => sermDetailsRows_length s)
  · show (List.mergeSort _ _).Pairwise _
    exact @List.sorted_mergeSort ExpandedSermon (fun a b => a.date.leb b.date)
      (fun a b c hab hbc => CalDate.leb_trans hab hbc)
      (fun a b => by rcases CalDate.leb_total a.date b.date with h | h <;> simp [h])
      (ss.flatMap sermDetailsRows)
  · exact List.mergeSort_perm (ss.flatMap sermDetailsRows) _
  · rcases l with _ | ⟨h, t⟩
    · exact absurd rfl hne
    · simp [sermDetailsRows, hsome, List.map_map]
  · rcases hph : s.preachingHistory with _ | l
    · simp [sermDetailsRows, hph]
    · rw [hph] at hemp
      simp only [Option.getD_some] at hemp
      subst hemp
      simp [sermDetailsRows, hph]
  · cases mode with
    | details => exact absurd rfl hmode
    | list => rfl
    | grid => rfl
  · rcases l with _ | ⟨h, t⟩
    · exact absurd rfl hne
    · have hmem := reduceLatestI_mem (h :: t) h
      simp only [List.mem_cons] at hmem
      have hmem' : reduceLatestI h (h :: t) ∈ h :: t := by
        rcases hmem with h1 | h1 | h1
        · rw [h1]; exact List.mem_cons_self h t
        · rw [h1]; exact List.mem_cons_self h t
        · exact List.mem_cons_of_mem h h1
      refine ⟨reduceLatestI h (h :: t), hmem', reduceLatestI_isMax h t, ?_, ?_, ?_⟩ <;>
        simp [sermCollapsedRow, hsome]
  · rcases hph : s.preachingHistory with _ | l
    · simp [sermCollapsedRow, hph]
    · rw [hph] at hemp
      simp only [Option.getD_some] at hemp
      subst hemp
      simp [sermCollapsedRow, hph]

theorem c5_projection_shapes_witness :
    (histSermon.preachingHistory = some [instA, instB] ∧ [instA, instB] ≠ [] ∧
      (sermDetailsRows histSermon).map (fun r => (r.date, r.place, r.preachingInstance)) =
        [instA, instB].map (fun i => (i.date, some i.location, some i))) ∧
    (∃ inst ∈ [instA, instB], isMaxDateOf inst.date [instA, instB] ∧
      (sermCollapsedRow histSermon).date = inst.date ∧
      (sermCollapsedRow histSermon).place = some inst.location ∧
      (sermCollapsedRow histSermon).preachingInstance = some inst) := by
  obtain ⟨-, -, -, h4, -, -, h7, -⟩ := c5_projection_shapes
  exact ⟨⟨rfl, by decide, h4 histSermon [instA, instB] rfl (by decide)⟩,
    h7 histSermon [instA, instB] rfl (by decide)⟩

/-! ## The duplicate-title merge path of `parseCSV` (claims C1, C3) -/

theorem modify_zero_cons (f : α → α) (a : α) (l : List α) :
    List.modify f 0 (a :: l) = f a :: l := rfl

theorem modify_succ_cons (f : α → α) (a : α) (l : List α) (n : Nat) :
    List.modify f (n + 1) (a :: l) = a :: List.modify f n l := rfl

theorem findIdx?_pre {α : Type} (p : α → Bool) (pre : List α) (s : α) (post : List α)
    (hpre : ∀ x ∈ pre, p x = false) (hs : p s = true) :
    List.findIdx? p (pre ++ s :: post) = some pre.length := by
  induction pre with
  | nil => simp [List.findIdx?_cons, hs]
  | cons a t ih =>
    have ha := hpre a (List.mem_cons_self a t)
    have ih' := ih (fun x hx => hpre x (List.mem_cons_of_mem a hx))
    simp [List.cons_append, List.findIdx?_cons, ha, List.findIdx?_succ, ih']

theorem foldDateMin_mem (l : List PInstance) :
    ∀ d0 : CalDate,
      l.foldl (fun e i => if i.date.ltb e then i.date else e) d0 ∈
        d0 :: l.map PInstance.date := by
  induction l with
  | nil => intro d0; simp
  | cons j rest ih =>
    intro d0
    rw [List.foldl_cons]
    by_cases hc : j.date.ltb d0 = true
    · rw [if_pos hc]
      have h := ih j.date
      simp only [List.mem_cons, List.map_cons] at h ⊢; tauto
    · rw [if_neg hc]
      have h := ih d0
      simp only [List.mem_cons, List.map_cons] at h ⊢; tauto

theorem foldDateMin_le (l : List PInstance) :
    ∀ d0 : CalDate, ∀ x ∈ d0 :: l.map PInstance.date,
      (l.foldl (fun e i => if i.date.ltb e then i.date else e) d0).leb x = true := by
  induction l with
  | nil =>
    intro d0 x hx
    simp only [List.map_nil, List.mem_cons, List.not_mem_nil, or_false] at hx
    subst hx; simp [CalDate.leb_refl]
  | cons j rest ih =>
    intro d0 x hx
    rw [List.foldl_cons]
    simp only [List.map_cons, List.mem_cons] at hx
    by_cases hc : j.date.ltb d0 = true
    · rw [if_pos hc]
      have ihh := ih j.date
      rcases hx with h1 | h1 | h1
      · rw [h1]
        exact CalDate.leb_trans (ihh j.date (by simp)) (CalDate.ltb_to_leb hc)
      · rw [h1]; exact ihh j.date (by simp)
      · exact ihh x (by simp [h1])
    · rw [if_neg hc]
      have ihh := ih d0
      rcases hx with h1 | h1 | h1
      · rw [h1]; exact ihh d0 (by simp)
      · rw [h1]
        exact CalDate.leb_trans (ihh d0 (by simp))
          (CalDate.not_ltb_to_leb (Bool.eq_false_iff.mpr hc))
      · exact ihh x (by simp [h1])

theorem modify_at_append (f : α → α) (pre : List α) (s : α) (post : List α) :
    List.modify f pre.length (pre ++ s :: post) = pre ++ f s :: post := by
  induction pre with
  | nil => rfl
  | cons a t ih => simpa [modify_succ_cons] using ih

/-- Merging a duplicate-titled row: when the first sermon of the accumulator
carrying the row's title (case-insensitively) sits at position `pre.length`,
`processRow` keeps the list length and replaces exactly that sermon by its
`mergeUpd`. -/
theorem processRow_merge (cmap : ColumnMap) (now : CalDate) (i : Nat)
    (pre : List Sermon) (s : Sermon) (post : List Sermon) (values : List Str)
    (hne : values.all (fun v => v.isEmpty) = false)
    (hpre : ∀ x ∈ pre,
      ¬ strLower x.title = strLower (getValue values cmap.title "Untitled".data))
    (hs : strLower s.title = strLower (getValue values cmap.title "Untitled".data)) :
    processRow cmap now i (pre ++ s :: post) values =
      pre ++ mergeUpd cmap now i values s :: post := by
  have hfind : (pre ++ s :: post).findIdx?
      (fun x => strLower x.title =
        strLower (getValue values cmap.title "Untitled".data)) = some pre.length :=
    findIdx?_pre _ pre s post
      (fun x hx => decide_eq_false (hpre x hx)) (decide_eq_true hs)
  show (if values.all (fun v => v.isEmpty) then _ else _) = _
  rw [if_neg (by simp [hne])]
  simp only [hfind]
  exact modify_at_append _ pre s post

theorem mergeUpd_place (cmap : ColumnMap) (now : CalDate) (i : Nat)
    (values : List Str) (s : Sermon) :
    (mergeUpd cmap now i values s).place = s.place := rfl

theorem mergeUpd_history (cmap : ColumnMap) (now : CalDate) (i : Nat)
    (values : List Str) (s : Sermon) :
    (mergeUpd cmap now i values s).preachingHistory =
      some (s.preachingHistory.getD [] ++ [mergeInstance cmap now i values]) := rfl

theorem mergeUpd_isMin (cmap : ColumnMap) (now : CalDate) (i : Nat)
    (values : List Str) (s : Sermon) :
    isMinDateOf (mergeUpd cmap now i values s).date
      (s.preachingHistory.getD [] ++ [mergeInstance cmap now i values]) := by
  rcases hh : s.preachingHistory.getD [] ++ [mergeInstance cmap now i values]
    with _ | ⟨h, t⟩
  · exact absurd hh (by simp)
  · have hdate : (mergeUpd cmap now i values s).date = (reduceEarliestI h t).date := by
      simp only [mergeUpd, hh]
    rw [hdate]
    exact reduceEarliestI_isMin h t

/-! ## Saving from the edit form -/

theorem handleSave_history (fd : FormData) (sermon : Option Sermon)
    (now : CalDate) (nid sid : Str) :
    (handleSave fd sermon now nid sid).preachingHistory =
      some (handleSavePH fd sermon now nid) := rfl

theorem handleSave_date (fd : FormData) (sermon : Option Sermon)
    (now : CalDate) (nid sid : Str) :
    (handleSave fd sermon now nid sid).date =
      firstDateOf (handleSavePH fd sermon now nid) (fd.date.getD now) := rfl

theorem handleSave_place (fd : FormData) (sermon : Option Sermon)
    (now : CalDate) (nid sid : Str) :
    (handleSave fd sermon now nid sid).place =
      some (firstPlaceOf (handleSavePH fd sermon now nid)
        (firstDateOf (handleSavePH fd sermon now nid) (fd.date.getD now))
        fd.place) := rfl

theorem firstDateOf_isMin (h : PInstance) (t : List PInstance) (dflt : CalDate) :
    isMinDateOf (firstDateOf (h :: t) dflt) (h :: t) := by
  constructor
  · have hm := foldDateMin_mem (h :: t) h.date
    simp only [List.map_cons, List.mem_cons] at hm ⊢
    tauto
  · intro i hi
    exact foldDateMin_le (h :: t) h.date i.date
      (List.mem_cons_of_mem _ (List.mem_map_of_mem PInstance.date hi))

/-- C1 (amended): after saving from the edit form, `sermon.date` is the
minimum of the preaching-instance dates and `sermon.place` is the location of
the first instance attaining that minimum provided that location is
non-blank; after a duplicate-titled CSV row is merged, `sermon.date` is
recomputed to the minimum instance date but `sermon.place` is left unchanged
from before the merge. -/
theorem c1_date_place_invariant :
    (∀ (fd : FormData) (sermon : Option Sermon) (now : CalDate) (nid sid : Str)
        (l : List PInstance),
        (handleSave fd sermon now nid sid).preachingHistory = some l → l ≠ [] →
        isMinDateOf (handleSave fd sermon now nid sid).date l ∧
        (∀ inst,
          l.find? (fun j => j.date = (handleSave fd sermon now nid sid).date) =
            some inst →
          inst.location ≠ [] →
          (handleSave fd sermon now nid sid).place = some inst.location)) ∧
    (∀ (cmap : ColumnMap) (now : CalDate) (i : Nat) (pre : List Sermon)
        (s : Sermon) (post : List Sermon) (values : List Str),
        values.all (fun v => v.isEmpty) = false →
        (∀ x ∈ pre,
          ¬ strLower x.title =
            strLower (getValue values cmap.title "Untitled".data)) →
        strLower s.title = strLower (getValue values cmap.title "Untitled".data) →
        processRow cmap now i (pre ++ s :: post) values =
          pre ++ mergeUpd cmap now i values s :: post ∧
        isMinDateOf (mergeUpd cmap now i values s).date
          (s.preachingHistory.getD [] ++ [mergeInstance cmap now i values]) ∧
        (mergeUpd cmap now i values s).place = s.place) := by
  constructor
  · intro fd sermon now nid sid l hl hne
    rw [handleSave_history] at hl
    have hph := Option.some.inj hl
    constructor
    · rw [handleSave_date, hph]
      rcases l with _ | ⟨h, t⟩
      · exact absurd rfl hne
      · exact firstDateOf_isMin h t _
    · intro inst hfind hloc
      rw [handleSave_date, hph] at hfind
      rw [handleSave_place, hph]
      simp only [firstPlaceOf, hfind]
      rcases hil : inst.location with _ | ⟨c, cs⟩
      · exact absurd hil hloc
      · simp [jsOrStr]
  · intro cmap now i pre s post values hne hpre hs
    exact ⟨processRow_merge cmap now i pre s post values hne hpre hs,
      mergeUpd_isMin cmap now i values s, mergeUpd_place cmap now i values s⟩

theorem c1_date_place_invariant_witness :
    isMinDateOf (handleSave histForm none ⟨2026, 10, 11⟩ "n".data "s".data).date
      [instA, instB] ∧
    (handleSave histForm none ⟨2026, 10, 11⟩ "n".data "s".data).place =
      some instB.location ∧
    processRow cmapNone ⟨2026, 10, 11⟩ 2 [untitledSermon] ["x".data] =
      [mergeUpd cmapNone ⟨2026, 10, 11⟩ 2 ["x".data] untitledSermon] ∧
    (mergeUpd cmapNone ⟨2026, 10, 11⟩ 2 ["x".data] untitledSermon).place =
      untitledSermon.place := by
  obtain ⟨ha, hb⟩ := c1_date_place_invariant
  have h1 := ha histForm none ⟨2026, 10, 11⟩ "n".data "s".data [instA, instB]
    rfl (by decide)
  have h2 := hb cmapNone ⟨2026, 10, 11⟩ 2 [] untitledSermon [] ["x".data]
    (by decide) (by simp) (by decide)
  exact ⟨h1.1, h1.2 instB (by decide) (by decide), h2.1, h2.2.2⟩

/-- C1 counterexample: importing two rows titled "Hope" whose second, earlier
row is at "Beta" leaves the merged sermon's `place` at "Alpha", the location
of the first row, not at the earliest instance's location. -/
theorem c1_counterexample :
    (parseCSV ⟨2026, 10, 11⟩ hopePlaceCsv).map
        (fun s => (s.place,
          ((s.preachingHistory.getD []).find? (fun i => i.date = s.date)).map
            PInstance.location)) =
      [(some "Alpha".data, some "Beta".data)] ∧
    some "Alpha".data ≠ some "Beta".data := by
  exact ⟨by decide, by decide⟩

/-- C3: a row whose title matches an earlier sermon of the same import
(case-insensitively) creates no second sermon: the accumulator keeps its
length, the matched sermon gets exactly one appended instance, and its date
becomes the minimum instance date; importing the two-row "Hope" file yields
one sermon with two instances and date 2024-12-01. -/
theorem c3_merge_by_title :
    (∀ (cmap : ColumnMap) (now : CalDate) (i : Nat) (pre : List Sermon)
        (s : Sermon) (post : List Sermon) (values : List Str),
        values.all (fun v => v.isEmpty) = false →
        (∀ x ∈ pre,
          ¬ strLower x.title =
            strLower (getValue values cmap.title "Untitled".data)) →
        strLower s.title = strLower (getValue values cmap.title "Untitled".data) →
        (processRow cmap now i (pre ++ s :: post) values).length =
          (pre ++ s :: post).length ∧
        processRow cmap now i (pre ++ s :: post) values =
          pre ++ mergeUpd cmap now i values s :: post ∧
        (mergeUpd cmap now i values s).preachingHistory =
          some (s.preachingHistory.getD [] ++ [mergeInstance cmap now i values]) ∧
        isMinDateOf (mergeUpd cmap now i values s).date
          (s.preachingHistory.getD [] ++ [mergeInstance cmap now i values])) ∧
    (parseCSV ⟨2026, 10, 11⟩ hopeCsv).map
        (fun s => (s.title, s.date, (s.preachingHistory.getD []).length)) =
      [("Hope".data, ⟨2024, 12, 1⟩, 2)] := by
  constructor
  · intro cmap now i pre s post values hne hpre hs
    have heq := processRow_merge cmap now i pre s post values hne hpre hs
    refine ⟨by rw [heq]; simp, heq,
      mergeUpd_history cmap now i values s, mergeUpd_isMin cmap now i values s⟩
  · decide

theorem c3_merge_by_title_witness :
    (processRow cmapNone ⟨2026, 10, 11⟩ 3 [untitledSermon] ["y".data]).length =
      [untitledSermon].length ∧
    (mergeUpd cmapNone ⟨2026, 10, 11⟩ 3 ["y".data] untitledSermon).preachingHistory =
      some (untitledSermon.preachingHistory.getD [] ++
        [mergeInstance cmapNone ⟨2026, 10, 11⟩ 3 ["y".data]]) := by
  obtain ⟨hg, -⟩ := c3_merge_by_title
  have h := hg cmapNone ⟨2026, 10, 11⟩ 3 [] untitledSermon [] ["y".data]
    (by decide) (by simp) (by decide)
  exact ⟨h.1, h.2.2.1⟩

/-! ## Date parser (claim C4) -/

/-- C4: the import date parser tries `DD-MM-YYYY`, then `DD/MM/YYYY`, then
`YYYY-MM-DD`, accepting a candidate only under the bounds and the
calendar round-trip validation (`specParseDate` restates this contract, and
`tryDMYdash`/`tryDMYslash`/`tryISO` carry the bounds day∈[1,31], month∈[1,12],
year∈[1900,2100] plus the reconstruction check); "30-02-2025" falls back to
the current date with a warning, and a batch containing such a row continues
importing the remaining rows. -/
theorem c4_date_parser_contract :
    (∀ (now : CalDate) (s : Str), parseDate now s = specParseDate now s) ∧
    (∀ now : CalDate, parseDate now "30-02-2025".data = (now, true)) ∧
    (∀ now : CalDate,
      (parseCSV now badDateCsv).map (fun s => (s.title, s.date)) =
        [("A".data, now), ("B".data, ⟨2024, 12, 1⟩)]) := by
  refine ⟨fun now s => ?_, fun now => rfl, fun now => rfl⟩
  have h0 : tryDMYdash [] = none := rfl
  have h1 : tryDMYslash [] = none := rfl
  have h2 : tryISO [] = none := rfl
  by_cases hc : s = [] ∨ trimL s = []
  · have htr : trimL s = [] := by
      rcases hc with rfl | h
      · rfl
      · exact h
    have hcond : (decide (s = []) || decide (trimL s = [])) = true := by
      simp [htr]
    rw [parseDate, specParseDate, htr]
    simp [hcond, h0, h1, h2, firstSomeDate]
  · push_neg at hc
    obtain ⟨hne1, hne2⟩ := hc
    have hcond : (decide (s = []) || decide (trimL s = [])) = false := by
      simp [hne1, hne2]
    rw [parseDate, specParseDate]
    simp only [hcond, Bool.false_eq_true, if_false]
    rcases hd : tryDMYdash (trimL s) with _ | d1
    · rcases hsl : tryDMYslash (trimL s) with _ | d2
      · rcases hi : tryISO (trimL s) with _ | d3 <;>
          simp [hd, hsl, hi, firstSomeDate]
      · simp [hd, hsl, firstSomeDate]
    · simp [hd, firstSomeDate]

/-! ## Header detection (claim C9) -/

/-- C9 counterexample: with headers `name,title`, the title column resolves
to index 1 (candidate order wins), not to index 0, the first header
containing one of the candidate substrings. -/
theorem c9_counterexample :
    getColumnIndex ["name".data, "title".data] titleCandidates = some 1 ∧
    firstHeaderWithAny ["name".data, "title".data] titleCandidates = some 0 ∧
    (some 1 : Option Nat) ≠ some 0 :=
  ⟨by decide, by decide, by decide⟩

/-- C9 (amended): header detection tries the candidate substrings in order
and, for each candidate, the first header containing it case-insensitively
wins — an earlier candidate beats an earlier header; when no header matches
any candidate, every imported row falls back to the per-field defaults: title
"Untitled", date the current date, place "Unknown Location", series absent,
tags/references empty lists, summary/type empty strings. -/
theorem c9_header_detection :
    (∀ headers names,
      getColumnIndex headers names = candidateOrderIndex headers names) ∧
    (∀ (now : CalDate) (i : Nat) (values : List Str),
      values.all (fun v => v.isEmpty) = false →
      processRow cmapNone now i [] values =
        [{ id := 's' :: natStr i, title := "Untitled".data, date := now,
           series := none, summary := some [], tags := [], references := some [],
           type := some [], place := some "Unknown Location".data,
           preachingHistory := some
             [{ id := natStr i, date := now,
                location := "Unknown Location".data : PInstance }] }]) := by
  constructor
  · intro headers names
    induction names with
    | nil => rfl
    | cons n rest ih =>
      rw [getColumnIndex, candidateOrderIndex]
      rcases h : headers.findIdx? (fun h => strIncludes h (strLower n)) with _ | j
      · simp [h, ih, Option.or]
      · simp [h, Option.or]
  · intro now i values hne
    show (if values.all (fun v => v.isEmpty) then _ else _) = _
    rw [if_neg (by simp [hne])]
    rfl

theorem c9_header_detection_witness :
    getColumnIndex ["x".data] titleCandidates =
      candidateOrderIndex ["x".data] titleCandidates ∧
    processRow cmapNone ⟨2026, 10, 11⟩ 1 [] ["z".data] =
      [{ id := 's' :: natStr 1, title := "Untitled".data, date := ⟨2026, 10, 11⟩,
         series := none, summary := some [], tags := [], references := some [],
         type := some [], place := some "Unknown Location".data,
         preachingHistory := some
           [{ id := natStr 1, date := ⟨2026, 10, 11⟩,
              location := "Unknown Location".data : PInstance }] }] := by
  obtain ⟨h1, h2⟩ := c9_header_detection
  exact ⟨h1 ["x".data] titleCandidates, h2 ⟨2026, 10, 11⟩ 1 ["z".data] (by decide)⟩

/-! ## CSV line splitting lemmas (claim C8) -/

theorem pclAux_quote_quote (rest2 cur : Str) :
    pclAux ('"' :: '"' :: rest2) cur true = pclAux rest2 (cur ++ ['"']) true := rfl

theorem pclAux_comma (rest cur : Str) :
    pclAux (',' :: rest) cur false = trimL cur :: pclAux rest [] false := rfl

theorem pclAux_quote_false (rest cur : Str) :
    pclAux ('"' :: rest) cur false = pclAux rest cur true := by
  rw [pclAux.eq_def]
  split <;> try simp_all
  all_goals (rename_i heq hne; exact absurd heq.1.symm hne)

theorem pclAux_quote_true (rest cur : Str) (h : rest.head? ≠ some '"') :
    pclAux ('"' :: rest) cur true = pclAux rest cur false := by
  rw [pclAux.eq_def]
  split <;> try simp_all
  all_goals (rename_i heq hne; exact absurd heq.1.symm hne)

theorem pclAux_other (c : Char) (rest cur : Str) (q : Bool) (hc : c ≠ '"')
    (hcq : (c = ',' && !q) = false) :
    pclAux (c :: rest) cur q = pclAux rest (cur ++ [c]) q := by
  rw [pclAux.eq_def]
  split <;> simp_all

theorem intercalate_cons₂ {α : Type} (sep : List α) (a b : List α) (t : List (List α)) :
    List.intercalate sep (a :: b :: t) = a ++ sep ++ List.intercalate sep (b :: t) := by
  simp [List.intercalate, List.intersperse]

theorem pclAux_append_inq (f : Str) :
    ∀ (cur rest : Str), (∀ c ∈ f, c ≠ '"') →
      pclAux (f ++ rest) cur true = pclAux rest (cur ++ f) true := by
  induction f with
  | nil => intro cur rest _; simp
  | cons c f' ih =>
    intro cur rest h
    have hc := h c (List.mem_cons_self c f')
    rw [List.cons_append, pclAux_other c _ _ true hc (by simp)]
    rw [ih (cur ++ [c]) rest (fun x hx => h x (List.mem_cons_of_mem c hx))]
    simp

theorem pclAux_append_unq (f : Str) :
    ∀ (cur rest : Str), (∀ c ∈ f, c ≠ '"' ∧ c ≠ ',') →
      pclAux (f ++ rest) cur false = pclAux rest (cur ++ f) false := by
  induction f with
  | nil => intro cur rest _; simp
  | cons c f' ih =>
    intro cur rest h
    have hc := h c (List.mem_cons_self c f')
    rw [List.cons_append, pclAux_other c _ _ false hc.1 (by simp [hc.2])]
    rw [ih (cur ++ [c]) rest (fun x hx => h x (List.mem_cons_of_mem c hx))]
    simp

theorem pclAux_quoted_field (f : Str) (cur rest : Str)
    (hq : ∀ c ∈ f, c ≠ '"') (hrest : rest.head? ≠ some '"') :
    pclAux ('"' :: (f ++ '"' :: rest)) cur false = pclAux rest (cur ++ f) false := by
  rw [pclAux_quote_false, pclAux_append_inq f cur ('"' :: rest) hq,
    pclAux_quote_true rest _ hrest]

theorem pclAux_quoted_fields (t : List Str) :
    ∀ (f cur : Str), (∀ c ∈ f, c ≠ '"') → (∀ g ∈ t, ∀ c ∈ g, c ≠ '"') →
      pclAux (List.intercalate [','] ((f :: t).map quoteField)) cur false =
        trimL (cur ++ f) :: t.map trimL := by
  induction t with
  | nil =>
    intro f cur hf _
    have h1 : List.intercalate [','] ([f].map quoteField) = '"' :: (f ++ '"' :: []) := by
      simp [List.intercalate, List.intersperse, quoteField]
    rw [h1, pclAux_quoted_field f cur [] hf (by simp)]
    rfl
  | cons g t' ih =>
    intro f cur hf hrest
    have hg := hrest g (List.mem_cons_self g t')
    have hrest' := fun x hx => hrest x (List.mem_cons_of_mem g hx)
    have h1 : List.intercalate [','] ((f :: g :: t').map quoteField) =
        '"' :: (f ++ '"' :: ',' :: List.intercalate [','] ((g :: t').map quoteField)) := by
      simp only [List.map_cons]
      rw [intercalate_cons₂]
      simp [quoteField]
    rw [h1, pclAux_quoted_field f cur _ hf (by simp), pclAux_comma,
      ih g [] hg hrest']
    simp

theorem parseCSVLine_quoted (f : Str) (t : List Str)
    (hf : ∀ c ∈ f, c ≠ '"') (ht : ∀ g ∈ t, ∀ c ∈ g, c ≠ '"') :
    parseCSVLine (List.intercalate [','] ((f :: t).map quoteField)) =
      (f :: t).map trimL := by
  unfold parseCSVLine
  rw [pclAux_quoted_fields t f [] hf ht]
  simp

theorem pclAux_escaped (a b : Str)
    (ha : ∀ c ∈ a, c ≠ '"') (hb : ∀ c ∈ b, c ≠ '"') :
    parseCSVLine ('"' :: (a ++ '"' :: '"' :: (b ++ ['"']))) =
      [trimL (a ++ '"' :: b)] := by
  unfold parseCSVLine
  rw [pclAux_quote_false, pclAux_append_inq a [] _ ha, pclAux_quote_quote]
  rw [show (b : Str) ++ ['"'] = b ++ '"' :: [] from rfl]
  rw [pclAux_append_inq b _ _ hb, pclAux_quote_true [] _ (by simp)]
  rw [show pclAux [] ([] ++ a ++ ['"'] ++ b) false =
      [trimL ([] ++ a ++ ['"'] ++ b)] from rfl]
  simp

theorem parseCSVLine_unquoted (a b : Str)
    (ha : ∀ c ∈ a, c ≠ '"' ∧ c ≠ ',') (hb : ∀ c ∈ b, c ≠ '"' ∧ c ≠ ',') :
    parseCSVLine (a ++ ',' :: b) = [trimL a, trimL b] := by
  unfold parseCSVLine
  rw [pclAux_append_unq a [] _ ha, pclAux_comma]
  rw [show (b : Str) = b ++ [] from (List.append_nil b).symm,
    pclAux_append_unq b [] [] hb]
  rw [show pclAux [] ([] ++ b) false = [trimL ([] ++ b)] from rfl]
  simp

theorem removeQuotes_no_quote (line : Str) :
    ∀ v ∈ (parseCSVLine line).map removeQuotes, '"' ∉ v := by
  intro v hv
  obtain ⟨u, _, rfl⟩ := List.mem_map.mp hv
  intro hmem
  have := List.mem_filter.mp hmem
  simp at this

/-- C8 (amended): double-quoted text is one split field even when it contains
commas; a doubled quote inside a quoted field yields one literal `"` in the
field produced by the line splitter, but the importer then strips every
double-quote character from each split field (`v.replace(/"/g,'')`), so no
imported field value ever contains a double quote; unquoted commas delimit
fields. -/
theorem c8_csv_line_splitting :
    (∀ (f : Str) (t : List Str),
      (∀ c ∈ f, c ≠ '"') → (∀ g ∈ t, ∀ c ∈ g, c ≠ '"') →
      parseCSVLine (List.intercalate [','] ((f :: t).map quoteField)) =
        (f :: t).map trimL) ∧
    (∀ a b : Str, (∀ c ∈ a, c ≠ '"') → (∀ c ∈ b, c ≠ '"') →
      parseCSVLine ('"' :: (a ++ '"' :: '"' :: (b ++ ['"']))) =
        [trimL (a ++ '"' :: b)]) ∧
    (∀ line : Str, ∀ v ∈ (parseCSVLine line).map removeQuotes, '"' ∉ v) ∧
    (∀ a b : Str,
      (∀ c ∈ a, c ≠ '"' ∧ c ≠ ',') → (∀ c ∈ b, c ≠ '"' ∧ c ≠ ',') →
      parseCSVLine (a ++ ',' :: b) = [trimL a, trimL b]) :=
  ⟨parseCSVLine_quoted, pclAux_escaped, removeQuotes_no_quote, parseCSVLine_unquoted⟩

theorem c8_csv_line_splitting_witness :
    parseCSVLine (List.intercalate [','] (["a,x".data, "c".data].map quoteField)) =
      ["a,x".data, "c".data].map trimL ∧
    parseCSVLine ('"' :: ("a".data ++ '"' :: '"' :: ("b".data ++ ['"']))) =
      [trimL ("a".data ++ '"' :: "b".data)] ∧
    parseCSVLine ("a".data ++ ',' :: "b".data) = [trimL "a".data, trimL "b".data] := by
  obtain ⟨h1, h2, -, h4⟩ := c8_csv_line_splitting
  exact ⟨h1 "a,x".data ["c".data] (by decide) (by decide),
    h2 "a".data "b".data (by decide) (by decide),
    h4 "a".data "b".data (by decide) (by decide)⟩

/-- C8 counterexample: in the line `"a""b",c` the doubled quote does produce
a literal quote in the split field, but the resulting imported field value
(after the importer's quote strip) is `ab`, without the quote character. -/
theorem c8_counterexample :
    parseCSVLine "\"a\"\"b\",c".data = ["a\"b".data, "c".data] ∧
    (parseCSVLine "\"a\"\"b\",c".data).map removeQuotes = ["ab".data, "c".data] ∧
    ("ab".data : Str) ≠ "a\"b".data :=
  ⟨by decide, by decide, by decide⟩

/-! ## Split, trim and digit lemmas (claim C2) -/

theorem splitOnChar_not_mem (sep : Char) : ∀ (l : Str), sep ∉ l → splitOnChar sep l = [l] := by
  intro l
  induction l with
  | nil => intro _; rfl
  | cons d l' ih =>
    intro h
    have hd : ¬ d = sep := fun heq => h (heq ▸ List.mem_cons_self d l')
    have h' : sep ∉ l' := fun hm => h (List.mem_cons_of_mem d hm)
    simp [splitOnChar, ih h', hd]

theorem splitOnChar_append (sep : Char) : ∀ (a R : Str), sep ∉ a →
    splitOnChar sep (a ++ sep :: R) = a :: splitOnChar sep R := by
  intro a
  induction a with
  | nil => intro R _; simp [splitOnChar]
  | cons d a' ih =>
    intro R h
    have hd : ¬ d = sep := fun heq => h (heq ▸ List.mem_cons_self d a')
    have h' : sep ∉ a' := fun hm => h (List.mem_cons_of_mem d hm)
    simp only [List.cons_append, splitOnChar, List.append_eq]
    rw [ih R h']
    simp [hd]

theorem splitOnChar_intercalate (sep : Char) : ∀ (ls : List Str), ls ≠ [] →
    (∀ x ∈ ls, sep ∉ x) → splitOnChar sep (List.intercalate [sep] ls) = ls := by
  intro ls
  induction ls with
  | nil => intro h _; exact absurd rfl h
  | cons a t ih =>
    intro _ hmem
    cases t with
    | nil =>
      have h1 : List.intercalate [sep] [a] = a := by
        simp [List.intercalate, List.intersperse]
      rw [h1]
      exact splitOnChar_not_mem sep a (hmem a (by simp))
    | cons b t' =>
      rw [intercalate_cons₂]
      rw [show a ++ [sep] ++ List.intercalate [sep] (b :: t') =
          a ++ sep :: List.intercalate [sep] (b :: t') from by simp]
      rw [splitOnChar_append sep a _ (hmem a (by simp))]
      rw [ih (by simp) (fun x hx => hmem x (List.mem_cons_of_mem a hx))]

theorem mem_intercalate (sep : Char) : ∀ (ls : List Str) (c : Char),
    c ∈ List.intercalate [sep] ls → c = sep ∨ ∃ x ∈ ls, c ∈ x := by
  intro ls
  induction ls with
  | nil => intro c hc; simp [List.intercalate] at hc
  | cons a t ih =>
    intro c hc
    cases t with
    | nil =>
      rw [show List.intercalate [sep] [a] = a from by
        simp [List.intercalate, List.intersperse]] at hc
      exact Or.inr ⟨a, by simp, hc⟩
    | cons b t' =>
      rw [intercalate_cons₂] at hc
      simp only [List.append_assoc, List.mem_append, List.mem_singleton] at hc
      rcases hc with h1 | h1 | h1
      · exact Or.inr ⟨a, by simp, h1⟩
      · exact Or.inl h1
      · rcases ih c h1 with h2 | ⟨x, hx, hcx⟩
        · exact Or.inl h2
        · exact Or.inr ⟨x, List.mem_cons_of_mem a hx, hcx⟩

theorem dropWhile_eq_self_of (p : Char → Bool) (l : Str)
    (h : ∀ c, l.head? = some c → p c = false) : l.dropWhile p = l := by
  cases l with
  | nil => rfl
  | cons d t => rw [List.dropWhile_cons, h d rfl]; simp

theorem trimL_eq_self (l : Str)
    (hh : ∀ c, l.head? = some c → isWSChar c = false)
    (hl : ∀ c, l.getLast? = some c → isWSChar c = false) : trimL l = l := by
  unfold trimL
  rw [dropWhile_eq_self_of _ l hh]
  rw [dropWhile_eq_self_of _ l.reverse (fun c hc => hl c (by rwa [← List.head?_reverse]))]
  exact List.reverse_reverse l

theorem trimL_eq_self_of_all (l : Str) (h : ∀ c ∈ l, isWSChar c = false) : trimL l = l := by
  refine trimL_eq_self l (fun c hc => h c ?_) (fun c hc => h c ?_)
  · exact List.mem_of_mem_head? hc
  · rw [← List.head?_reverse] at hc
    exact List.mem_reverse.mp (List.mem_of_mem_head? hc)

theorem head_not_p_of_dropWhile_eq (p : Char → Bool) (l : Str)
    (h : l.dropWhile p = l) : ∀ c, l.head? = some c → p c = false := by
  intro c hc
  cases l with
  | nil => simp at hc
  | cons d t =>
    simp only [List.head?_cons, Option.some.injEq] at hc
    subst hc
    by_contra hp
    rw [Bool.not_eq_false] at hp
    rw [List.dropWhile_cons, hp] at h
    simp only [if_true] at h
    have h1 := congrArg List.length h
    have h2 := (List.dropWhile_sublist (l := t) p).length_le
    simp at h1
    omega

theorem trim_parts (f : Str) (h : trimL f = f) :
    f.dropWhile isWSChar = f ∧ f.reverse.dropWhile isWSChar = f.reverse := by
  unfold trimL at h
  have hlen := congrArg List.length h
  have l1 := (List.dropWhile_sublist (l := f) isWSChar).length_le
  have l2 := (List.dropWhile_sublist (l := (f.dropWhile isWSChar).reverse)
    isWSChar).length_le
  simp only [List.length_reverse] at hlen l2
  have hA : f.dropWhile isWSChar = f :=
    (List.dropWhile_sublist _).eq_of_length (by omega)
  rw [hA] at h
  refine ⟨hA, ?_⟩
  have := congrArg List.reverse h
  rwa [List.reverse_reverse] at this

theorem head_not_ws_of_trimmed (f : Str) (h : trimL f = f) :
    ∀ c, f.head? = some c → isWSChar c = false :=
  head_not_p_of_dropWhile_eq isWSChar f (trim_parts f h).1

theorem last_not_ws_of_trimmed (f : Str) (h : trimL f = f) :
    ∀ c, f.getLast? = some c → isWSChar c = false := by
  intro c hc
  rw [← List.head?_reverse] at hc
  exact head_not_p_of_dropWhile_eq isWSChar f.reverse (trim_parts f h).2 c hc

/-! ## Digit lemmas -/

theorem digitChar_toNat (k : Nat) (h : k < 10) : (Nat.digitChar k).toNat = 48 + k := by
  interval_cases k <;> rfl

theorem digitChar_digit (k : Nat) (h : k < 10) : isDigitB (Nat.digitChar k) = true := by
  interval_cases k <;> decide

theorem digit_ne (c : Char) (h : isDigitB c = true) :
    c ≠ '"' ∧ c ≠ '\n' ∧ c ≠ '\r' ∧ c ≠ '-' ∧ c ≠ '/' ∧ c ≠ ',' ∧ c ≠ ';' ∧
      isWSChar c = false := by
  refine ⟨?_, ?_, ?_, ?_, ?_, ?_, ?_, ?_⟩
  · rintro rfl; exact absurd h (by decide)
  · rintro rfl; exact absurd h (by decide)
  · rintro rfl; exact absurd h (by decide)
  · rintro rfl; exact absurd h (by decide)
  · rintro rfl; exact absurd h (by decide)
  · rintro rfl; exact absurd h (by decide)
  · rintro rfl; exact absurd h (by decide)
  · by_contra hws
    rw [Bool.not_eq_false] at hws
    simp only [isWSChar, Bool.or_eq_true, decide_eq_true_eq] at hws
    rcases hws with ((rfl | rfl) | rfl) | rfl <;> exact absurd h (by decide)

theorem digitsToNat_four (y : Nat) (h : y < 10000) : digitsToNat (fourDigits y) = y := by
  have e1 := digitChar_toNat (y / 1000) (by omega)
  have e2 := digitChar_toNat (y / 100 % 10) (Nat.mod_lt _ (by omega))
  have e3 := digitChar_toNat (y / 10 % 10) (Nat.mod_lt _ (by omega))
  have e4 := digitChar_toNat (y % 10) (Nat.mod_lt _ (by omega))
  simp only [digitsToNat, fourDigits, List.foldl]
  rw [e1, e2, e3, e4]
  omega

theorem digitsToNat_two (n : Nat) (h : n < 100) : digitsToNat (twoDigits n) = n := by
  have e1 := digitChar_toNat (n / 10) (by omega)
  have e2 := digitChar_toNat (n % 10) (Nat.mod_lt _ (by omega))
  simp only [digitsToNat, twoDigits, List.foldl]
  rw [e1, e2]
  omega

theorem fourDigits_digits (y : Nat) (h : y < 10000) :
    ∀ c ∈ fourDigits y, isDigitB c = true := by
  intro c hc
  simp only [fourDigits, List.mem_cons, List.not_mem_nil, or_false] at hc
  rcases hc with rfl | rfl | rfl | rfl <;> exact digitChar_digit _ (by omega)

theorem twoDigits_digits (n : Nat) (h : n < 100) :
    ∀ c ∈ twoDigits n, isDigitB c = true := by
  intro c hc
  simp only [twoDigits, List.mem_cons, List.not_mem_nil, or_false] at hc
  rcases hc with rfl | rfl <;> exact digitChar_digit _ (by omega)

/-! ## The exported date string parses back (claim C2) -/

theorem daysInMonth_le (y m : Nat) : daysInMonth y m ≤ 31 := by
  unfold daysInMonth
  split
  · split <;> omega
  · split <;> omega

theorem formatISO_eq_intercalate (d : CalDate) :
    formatISO d =
      List.intercalate ['-'] [fourDigits d.year, twoDigits d.month, twoDigits d.day] := by
  simp [formatISO, List.intercalate, List.intersperse]

theorem formatISO_chars (d : CalDate) (hy : d.year < 10000) (hm : d.month < 100)
    (hd : d.day < 100) : ∀ c ∈ formatISO d, isDigitB c = true ∨ c = '-' := by
  intro c hc
  rw [formatISO_eq_intercalate] at hc
  rcases mem_intercalate '-' _ c hc with rfl | ⟨x, hx, hcx⟩
  · exact Or.inr rfl
  · left
    simp only [List.mem_cons, List.not_mem_nil, or_false] at hx
    rcases hx with rfl | rfl | rfl
    · exact fourDigits_digits d.year hy c hcx
    · exact twoDigits_digits d.month hm c hcx
    · exact twoDigits_digits d.day hd c hcx

theorem splitDash_formatISO (d : CalDate) (hy : d.year < 10000) (hm : d.month < 100)
    (hd : d.day < 100) :
    splitOnChar '-' (formatISO d) =
      [fourDigits d.year, twoDigits d.month, twoDigits d.day] := by
  rw [formatISO_eq_intercalate]
  apply splitOnChar_intercalate '-' _ (by simp)
  intro x hx hmem
  simp only [List.mem_cons, List.not_mem_nil, or_false] at hx
  rcases hx with rfl | rfl | rfl
  · exact absurd (fourDigits_digits d.year hy '-' hmem) (by decide)
  · exact absurd (twoDigits_digits d.month hm '-' hmem) (by decide)
  · exact absurd (twoDigits_digits d.day hd '-' hmem) (by decide)

theorem parseDate_formatISO (now : CalDate) (d : CalDate) (h : validInRange d) :
    parseDate now (formatISO d) = (d, false) := by
  obtain ⟨y, m, dd⟩ := d
  unfold validInRange at h
  dsimp only at h
  obtain ⟨hy1, hy2, hm1, hm2, hd1, hd2⟩ := h
  have hdim := daysInMonth_le y m
  have hy : y < 10000 := by omega
  have hm : m < 100 := by omega
  have hdd : dd < 100 := by omega
  have hchars := formatISO_chars ⟨y, m, dd⟩ hy hm hdd
  have htr : trimL (formatISO ⟨y, m, dd⟩) = formatISO ⟨y, m, dd⟩ := by
    apply trimL_eq_self_of_all
    intro c hc
    rcases hchars c hc with hdig | rfl
    · exact (digit_ne c hdig).2.2.2.2.2.2.2
    · rfl
  have hne : formatISO ⟨y, m, dd⟩ ≠ [] := by simp [formatISO, fourDigits]
  have hsplit := splitDash_formatISO ⟨y, m, dd⟩ hy hm hdd
  have h1 : tryDMYdash (formatISO ⟨y, m, dd⟩) = none := by
    unfold tryDMYdash matchThree
    rw [hsplit]
    simp [widthOneOrTwo, show (fourDigits y).length = 4 from rfl]
  have h2 : tryDMYslash (formatISO ⟨y, m, dd⟩) = none := by
    unfold tryDMYslash matchThree
    have hs : splitOnChar '/' (formatISO ⟨y, m, dd⟩) = [formatISO ⟨y, m, dd⟩] := by
      apply splitOnChar_not_mem
      intro hmem
      rcases hchars '/' hmem with hdig | heq
      · exact absurd hdig (by decide)
      · exact absurd heq (by decide)
    rw [hs]
  have hAD4 : allDigits (fourDigits y) = true :=
    List.all_eq_true.mpr (fun c hc => fourDigits_digits y hy c hc)
  have hAD2m : allDigits (twoDigits m) = true :=
    List.all_eq_true.mpr (fun c hc => twoDigits_digits m hm c hc)
  have hAD2d : allDigits (twoDigits dd) = true :=
    List.all_eq_true.mpr (fun c hc => twoDigits_digits dd hdd c hc)
  have hjs : jsMkDate y m dd = ⟨y, m, dd⟩ := by
    simp only [jsMkDate]
    rw [if_pos hd2]
  have hchk : checkedDate dd m y = some ⟨y, m, dd⟩ := by
    simp only [checkedDate, hjs]
    rw [if_pos (by simp only [Bool.and_eq_true, decide_eq_true_eq]; omega)]
    simp
  have hmt : matchThree '-' widthFour widthOneOrTwo widthOneOrTwo
      (formatISO ⟨y, m, dd⟩) =
      some (digitsToNat (fourDigits y), digitsToNat (twoDigits m),
        digitsToNat (twoDigits dd)) := by
    unfold matchThree
    rw [hsplit]
    dsimp only
    rw [if_pos (by
      simp [widthFour, widthOneOrTwo, hAD4, hAD2m, hAD2d,
        show (fourDigits y).length = 4 from rfl,
        show (twoDigits m).length = 2 from rfl,
        show (twoDigits dd).length = 2 from rfl])]
  have h3 : tryISO (formatISO ⟨y, m, dd⟩) = some ⟨y, m, dd⟩ := by
    unfold tryISO
    rw [hmt]
    dsimp only
    rw [digitsToNat_four y hy, digitsToNat_two m hm, digitsToNat_two dd hdd]
    exact hchk
  unfold parseDate
  rw [if_neg (by simp [hne, htr])]
  simp only [htr, h1, h2, h3]

/-! ## Clean export rows re-parse to their raw fields (claim C2) -/

theorem removeQuotes_eq_self (f : Str) (h : ∀ c ∈ f, c ≠ '"') :
    removeQuotes f = f :=
  List.filter_eq_self.mpr (fun c hc => by simp [h c hc])

theorem head?_intercalate (sep : List Char) (a : Str) (t : List Str) (ha : a ≠ []) :
    (List.intercalate sep (a :: t)).head? = a.head? := by
  cases t with
  | nil => rw [show List.intercalate sep [a] = a from by
      simp [List.intercalate, List.intersperse]]
  | cons b t' =>
    rw [intercalate_cons₂]
    rcases a with _ | ⟨c, r⟩
    · exact absurd rfl ha
    · simp

theorem getLast?_intercalate (sep : List Char) :
    ∀ (t : List Str) (a : Str), (∀ x ∈ a :: t, x ≠ []) →
      ∃ b ∈ a :: t, (List.intercalate sep (a :: t)).getLast? = b.getLast? := by
  intro t
  induction t with
  | nil =>
    intro a _
    exact ⟨a, by simp, by rw [show List.intercalate sep [a] = a from by
      simp [List.intercalate, List.intersperse]]⟩
  | cons b t' ih =>
    intro a hne
    obtain ⟨b', hb', heq⟩ := ih b (fun x hx => hne x (List.mem_cons_of_mem a hx))
    refine ⟨b', List.mem_cons_of_mem a hb', ?_⟩
    rw [intercalate_cons₂, List.append_assoc, List.getLast?_append]
    have hbne : b' ≠ [] := hne b' (List.mem_cons_of_mem a hb')
    have : (List.intercalate sep (b :: t')).getLast? ≠ none := by
      rw [heq]
      rcases hb2 : b' with _ | ⟨c, r⟩
      · exact absurd hb2 hbne
      · simp
    rcases ho : (List.intercalate sep (b :: t')).getLast? with _ | v
    · exact absurd ho this
    · rw [List.getLast?_append, ho]
      simp [← heq, ho]

theorem intercalateSemi_chars (ts : List Str) (h : ∀ t ∈ ts, cleanItem t) :
    ∀ c ∈ List.intercalate [';'] ts, c ≠ '"' ∧ c ≠ '\n' ∧ c ≠ '\r' := by
  intro c hc
  rcases ts with _ | ⟨a, t⟩
  · simp [List.intercalate] at hc
  · rcases mem_intercalate ';' (a :: t) c hc with rfl | ⟨x, hx, hcx⟩
    · exact ⟨by decide, by decide, by decide⟩
    · exact (h x hx).1.1 c hcx

theorem intercalateSemi_trim (ts : List Str) (h : ∀ t ∈ ts, cleanItem t) :
    trimL (List.intercalate [';'] ts) = List.intercalate [';'] ts := by
  rcases ts with _ | ⟨a, t⟩
  · rfl
  · have hane : a ≠ [] := (h a (by simp)).2.1
    apply trimL_eq_self
    · intro c hc
      rw [head?_intercalate [';'] a t hane] at hc
      exact head_not_ws_of_trimmed a (h a (by simp)).1.2 c hc
    · intro c hc
      obtain ⟨b, hb, heq⟩ :=
        getLast?_intercalate [';'] t a (fun x hx => (h x hx).2.1)
      rw [heq] at hc
      exact last_not_ws_of_trimmed b (h b hb).1.2 c hc

theorem formatISO_bounds (d : CalDate) (h : validInRange d) :
    d.year < 10000 ∧ d.month < 100 ∧ d.day < 100 := by
  obtain ⟨h1, h2, h3, h4, h5, h6⟩ := h
  have := daysInMonth_le d.year d.month
  exact ⟨by omega, by omega, by omega⟩

theorem formatISO_trim (d : CalDate) (h : validInRange d) :
    trimL (formatISO d) = formatISO d := by
  obtain ⟨hy, hm, hd⟩ := formatISO_bounds d h
  apply trimL_eq_self_of_all
  intro c hc
  rcases formatISO_chars d hy hm hd c hc with hdig | rfl
  · exact (digit_ne c hdig).2.2.2.2.2.2.2
  · rfl

theorem formatISO_no_quote (d : CalDate) (h : validInRange d) :
    ∀ c ∈ formatISO d, c ≠ '"' := by
  obtain ⟨hy, hm, hd⟩ := formatISO_bounds d h
  intro c hc
  rcases formatISO_chars d hy hm hd c hc with hdig | rfl
  · exact (digit_ne c hdig).1
  · decide

theorem formatISO_ne_nil (d : CalDate) : formatISO d ≠ [] := by
  simp [formatISO, fourDigits]

theorem rowFields_no_quote (s : Sermon) (h : cleanSermon s) :
    ∀ f ∈ rowFields s, ∀ c ∈ f, c ≠ '"' := by
  obtain ⟨ht, htn, hdt, hser, hsum, htags, hrefs, hty, hpl1, hpl2, hpl3⟩ := h
  intro f hf
  simp only [rowFields, List.mem_cons, List.not_mem_nil, or_false] at hf
  rcases hf with rfl | rfl | rfl | rfl | rfl | rfl | rfl | rfl
  · exact fun c hc => (ht.1 c hc).1
  · exact formatISO_no_quote s.date hdt
  · rcases hs : s.series with _ | t
    · simp
    · rw [hs] at hser
      exact fun c hc => (hser.1.1 c hc).1
  · exact fun c hc => (hsum.1 c hc).1
  · exact fun c hc => (intercalateSemi_chars s.tags htags c hc).1
  · exact fun c hc => (intercalateSemi_chars _ hrefs c hc).1
  · exact fun c hc => (hty.1 c hc).1
  · rcases hp : s.place with _ | p
    · exact absurd hp hpl1
    · rw [hp] at hpl2
      exact fun c hc => (hpl2.1.1 c hc).1

theorem rowFields_trimmed (s : Sermon) (h : cleanSermon s) :
    ∀ f ∈ rowFields s, trimL f = f := by
  obtain ⟨ht, htn, hdt, hser, hsum, htags, hrefs, hty, hpl1, hpl2, hpl3⟩ := h
  intro f hf
  simp only [rowFields, List.mem_cons, List.not_mem_nil, or_false] at hf
  rcases hf with rfl | rfl | rfl | rfl | rfl | rfl | rfl | rfl
  · exact ht.2
  · exact formatISO_trim s.date hdt
  · rcases hs : s.series with _ | t
    · rfl
    · rw [hs] at hser
      exact hser.1.2
  · exact hsum.2
  · exact intercalateSemi_trim s.tags htags
  · exact intercalateSemi_trim _ hrefs
  · exact hty.2
  · rcases hp : s.place with _ | p
    · exact absurd hp hpl1
    · rw [hp] at hpl2
      exact hpl2.1.2

theorem values_of_csvRow (s : Sermon) (h : cleanSermon s) :
    (parseCSVLine (csvRow s)).map removeQuotes = rowFields s := by
  have hq := rowFields_no_quote s h
  have hrow : csvRow s = List.intercalate [','] ((rowFields s).map quoteField) := rfl
  have hshape : rowFields s =
      s.title :: [formatISO s.date, s.series.getD [], s.summary.getD [],
        List.intercalate [';'] s.tags, List.intercalate [';'] (s.references.getD []),
        s.type.getD [], s.place.getD []] := rfl
  rw [hrow, hshape, parseCSVLine_quoted _ _
    (fun c hc => hq s.title (by rw [hshape]; simp) c hc)
    (fun g hg c hc => hq g (by rw [hshape]; exact List.mem_cons_of_mem _ hg) c hc)]
  rw [← hshape]
  have h1 : (rowFields s).map trimL = rowFields s :=
    ((List.map_congr_left (fun f hf => rowFields_trimmed s h f hf)).trans
      (List.map_id _) : (rowFields s).map trimL = rowFields s)
  rw [h1]
  exact (List.map_congr_left (fun f hf => removeQuotes_eq_self f (hq f hf))).trans
    (List.map_id _)

theorem findIdx?_none {α : Type} (p : α → Bool) :
    ∀ (l : List α), (∀ x ∈ l, p x = false) → l.findIdx? p = none := by
  intro l
  induction l with
  | nil => intro _; rfl
  | cons a t ih =>
    intro h
    rw [List.findIdx?_cons, if_neg (by simp [h a (List.mem_cons_self a t)])]
    rw [List.findIdx?_succ, ih (fun x hx => h x (List.mem_cons_of_mem a hx))]
    rfl

theorem seriesField_eq (o : Option Str) (h : cleanOptNE o) :
    (if (o.getD []).isEmpty then none else some (o.getD [])) = o := by
  rcases o with _ | t
  · rfl
  · have ht : t ≠ [] := h.2
    rcases htt : t with _ | ⟨c, r⟩
    · exact absurd htt ht
    · simp

theorem itemsField_eq (ts : List Str) (h : ∀ t ∈ ts, cleanItem t) :
    (if (List.intercalate [';'] ts).isEmpty then []
     else splitSemi (List.intercalate [';'] ts)) = ts := by
  rcases ts with _ | ⟨a, t⟩
  · rfl
  · have ha : a ≠ [] := (h a (by simp)).2.1
    have hne : List.intercalate [';'] (a :: t) ≠ [] := by
      cases t with
      | nil =>
        rw [show List.intercalate [';'] [a] = a from by
          simp [List.intercalate, List.intersperse]]
        exact ha
      | cons b t' =>
        rw [intercalate_cons₂]
        simp [ha]
    rw [if_neg (by simp [hne])]
    unfold splitSemi
    rw [splitOnChar_intercalate ';' (a :: t) (by simp)
      (fun x hx hmem => (h x hx).2.2 ';' hmem rfl)]
    refine List.filter_eq_self.mpr (fun x hx => ?_)
    have : x ≠ [] := (h x hx).2.1
    simp [List.length_pos, this]

theorem getValue_dflt_nil (values : List Str) (k : Nat) (v : Str)
    (hv : values.get? k = some v) : getValue values (some k) [] = v := by
  simp only [getValue, hv]
  rcases hvv : v with _ | ⟨c, r⟩
  · simp
  · simp

theorem processRow_new (now : CalDate) (i : Nat) (acc : List Sermon) (s : Sermon)
    (h : cleanSermon s)
    (hfresh : ∀ a ∈ acc, ¬ strLower a.title = strLower s.title) :
    processRow stdColumnMap now i acc (rowFields s) = acc ++ [importedOf i s] := by
  have hstd : stdColumnMap =
      ⟨some 0, some 1, some 2, some 3, some 4, some 5, some 6, some 7⟩ := by rfl
  have htn : s.title ≠ [] := h.2.1
  have htitle : s.title.isEmpty = false := by
    rcases ht : s.title with _ | ⟨c, r⟩
    · exact absurd ht htn
    · rfl
  have hfiso : (formatISO s.date).isEmpty = false := by
    rcases hf : formatISO s.date with _ | ⟨c, r⟩
    · exact absurd hf (formatISO_ne_nil s.date)
    · rfl
  obtain ⟨p, hp⟩ : ∃ p, s.place = some p := by
    rcases hps : s.place with _ | p
    · exact absurd hps h.2.2.2.2.2.2.2.2.1
    · exact ⟨p, rfl⟩
  have hpne : p ≠ [] := by
    intro hnil
    exact h.2.2.2.2.2.2.2.2.2.2 (by rw [hp, hnil])
  have hplace : (s.place.getD []).isEmpty = false := by
    rw [hp]
    rcases hpp : p with _ | ⟨c, r⟩
    · exact absurd hpp hpne
    · rfl
  have g0 : getValue (rowFields s) (some 0) "Untitled".data = s.title := by
    simp [getValue, rowFields, htitle]
  have g1 : getValue (rowFields s) (some 1) [] = formatISO s.date :=
    getValue_dflt_nil _ 1 _ rfl
  have g2 : getValue (rowFields s) (some 2) [] = s.series.getD [] :=
    getValue_dflt_nil _ 2 _ rfl
  have g3 : getValue (rowFields s) (some 3) [] = s.summary.getD [] :=
    getValue_dflt_nil _ 3 _ rfl
  have g4 : getValue (rowFields s) (some 4) [] = List.intercalate [';'] s.tags :=
    getValue_dflt_nil _ 4 _ rfl
  have g5 : getValue (rowFields s) (some 5) [] =
      List.intercalate [';'] (s.references.getD []) :=
    getValue_dflt_nil _ 5 _ rfl
  have g6 : getValue (rowFields s) (some 6) [] = s.type.getD [] :=
    getValue_dflt_nil _ 6 _ rfl
  have g7 : getValue (rowFields s) (some 7) "Unknown Location".data =
      s.place.getD [] := by
    simp [getValue, rowFields, hplace]
  have hall : (rowFields s).all (fun v => v.isEmpty) = false := by
    simp [rowFields, htitle]
  have hfind : acc.findIdx?
      (fun a => strLower a.title =
        strLower (getValue (rowFields s) (some 0) "Untitled".data)) = none := by
    apply findIdx?_none
    intro x hx
    rw [g0]
    exact decide_eq_false (hfresh x hx)
  show (if (rowFields s).all (fun v => v.isEmpty) then _ else _) = _
  rw [if_neg (by simp [hall])]
  rw [hstd]
  simp only [hfind]
  congr 1
  simp only [importedOf, g0, g1, g2, g3, g4, g5, g6, g7,
    parseDate_formatISO now s.date h.2.2.1]
  rw [seriesField_eq s.series h.2.2.2.1, itemsField_eq s.tags h.2.2.2.2.2.1,
    itemsField_eq (s.references.getD []) h.2.2.2.2.2.2.1]

/-! ## The import loop on clean export rows (claim C2) -/

theorem outFields_importedOf (i : Nat) (s : Sermon) (h : cleanSermon s) :
    outFields (importedOf i s) = inFields s := by
  obtain ⟨p, hp⟩ : ∃ p, s.place = some p := by
    rcases hps : s.place with _ | p
    · exact absurd hps h.2.2.2.2.2.2.2.2.1
    · exact ⟨p, rfl⟩
  simp [outFields, inFields, importedOf, hp]

theorem importRows_clean (now : CalDate) (todo : List Sermon) :
    ∀ (k : Nat) (acc : List Sermon),
      (∀ s ∈ todo, cleanSermon s) →
      todo.Pairwise (fun a b => strLower a.title ≠ strLower b.title) →
      (∀ s ∈ todo, ∀ a ∈ acc, ¬ strLower a.title = strLower s.title) →
      (importRows stdColumnMap now k acc (todo.map csvRow)).map outFields =
        acc.map outFields ++ todo.map inFields ∧
      (∀ t ∈ importRows stdColumnMap now k acc (todo.map csvRow),
        t ∈ acc ∨ (t.versions = none ∧ t.image = none)) := by
  induction todo with
  | nil =>
    intro k acc _ _ _
    exact ⟨by simp [importRows], fun t ht => Or.inl (by simpa [importRows] using ht)⟩
  | cons s todo' ih =>
    intro k acc hclean hpw hfresh
    have hs := hclean s (by simp)
    have hstep : importRows stdColumnMap now k acc ((s :: todo').map csvRow) =
        importRows stdColumnMap now (k + 1) (acc ++ [importedOf k s])
          (todo'.map csvRow) := by
      simp only [List.map_cons, importRows]
      rw [values_of_csvRow s hs,
        processRow_new now k acc s hs (fun a ha => hfresh s (by simp) a ha)]
    rw [hstep]
    have hhead := (List.pairwise_cons.mp hpw).1
    have hpw' := (List.pairwise_cons.mp hpw).2
    have hfresh' : ∀ s' ∈ todo', ∀ a ∈ acc ++ [importedOf k s],
        ¬ strLower a.title = strLower s'.title := by
      intro s' hs' a ha
      rcases List.mem_append.mp ha with h1 | h1
      · exact hfresh s' (List.mem_cons_of_mem s hs') a h1
      · simp only [List.mem_singleton] at h1
        subst h1
        intro heq
        exact hhead s' hs' (by simpa [importedOf] using heq)
    obtain ⟨ihA, ihB⟩ := ih (k + 1) (acc ++ [importedOf k s])
      (fun x hx => hclean x (List.mem_cons_of_mem s hx)) hpw' hfresh'
    constructor
    · rw [ihA]
      simp [outFields_importedOf k s hs]
    · intro t ht
      rcases ihB t ht with h1 | h1
      · rcases List.mem_append.mp h1 with h2 | h2
        · exact Or.inl h2
        · simp only [List.mem_singleton] at h2
          subst h2
          exact Or.inr ⟨rfl, rfl⟩
      · exact Or.inr h1

/-! ## The export string trims and splits back into its lines (claim C2) -/

theorem rowFields_no_nl (s : Sermon) (h : cleanSermon s) :
    ∀ f ∈ rowFields s, ∀ c ∈ f, c ≠ '\n' := by
  obtain ⟨ht, htn, hdt, hser, hsum, htags, hrefs, hty, hpl1, hpl2, hpl3⟩ := h
  obtain ⟨hy, hm, hd⟩ := formatISO_bounds s.date hdt
  intro f hf
  simp only [rowFields, List.mem_cons, List.not_mem_nil, or_false] at hf
  rcases hf with rfl | rfl | rfl | rfl | rfl | rfl | rfl | rfl
  · exact fun c hc => (ht.1 c hc).2.1
  · intro c hc
    rcases formatISO_chars s.date hy hm hd c hc with hdig | rfl
    · exact (digit_ne c hdig).2.1
    · decide
  · rcases hs : s.series with _ | t
    · simp
    · rw [hs] at hser
      exact fun c hc => (hser.1.1 c hc).2.1
  · exact fun c hc => (hsum.1 c hc).2.1
  · exact fun c hc => (intercalateSemi_chars s.tags htags c hc).2.1
  · exact fun c hc => (intercalateSemi_chars _ hrefs c hc).2.1
  · exact fun c hc => (hty.1 c hc).2.1
  · rcases hp : s.place with _ | p
    · exact absurd hp hpl1
    · rw [hp] at hpl2
      exact fun c hc => (hpl2.1.1 c hc).2.1

theorem mem_quoteField (f : Str) (c : Char) (hc : c ∈ quoteField f) :
    c = '"' ∨ c ∈ f := by
  simp only [quoteField, List.mem_cons, List.mem_append, List.mem_singleton] at hc
  tauto

theorem csvRow_no_newline (s : Sermon) (h : cleanSermon s) :
    ∀ c ∈ csvRow s, c ≠ '\n' := by
  intro c hc
  have hrow : csvRow s = List.intercalate [','] ((rowFields s).map quoteField) := rfl
  rw [hrow] at hc
  rcases mem_intercalate ',' _ c hc with rfl | ⟨x, hx, hcx⟩
  · decide
  · obtain ⟨f, hf, rfl⟩ := List.mem_map.mp hx
    rcases mem_quoteField f c hcx with rfl | hcf
    · decide
    · exact rowFields_no_nl s h f hf c hcf

theorem quoteField_ne_nil (f : Str) : quoteField f ≠ [] := by simp [quoteField]

theorem quoteField_getLast (f : Str) : (quoteField f).getLast? = some '"' := by
  rw [show quoteField f = ('"' :: f) ++ ['"'] from by simp [quoteField]]
  exact List.getLast?_concat _

theorem csvRow_ne_nil (s : Sermon) : csvRow s ≠ [] := by
  have hrow : csvRow s = List.intercalate [','] ((rowFields s).map quoteField) := rfl
  have hh : (csvRow s).head? = (quoteField s.title).head? := by
    rw [hrow]
    exact head?_intercalate [','] _ _ (quoteField_ne_nil _)
  intro hnil
  rw [hnil] at hh
  simp [quoteField] at hh

theorem csvRow_getLast (s : Sermon) : (csvRow s).getLast? = some '"' := by
  have hrow : csvRow s = List.intercalate [','] ((rowFields s).map quoteField) := rfl
  obtain ⟨b, hb, heq⟩ := getLast?_intercalate [',']
    ([formatISO s.date, s.series.getD [], s.summary.getD [],
      List.intercalate [';'] s.tags, List.intercalate [';'] (s.references.getD []),
      s.type.getD [], s.place.getD []].map quoteField) (quoteField s.title)
    (by
      intro x hx
      rcases List.mem_cons.mp hx with rfl | hx'
      · exact quoteField_ne_nil _
      · obtain ⟨f, _, rfl⟩ := List.mem_map.mp hx'
        exact quoteField_ne_nil f)
  rw [hrow, show (rowFields s).map quoteField =
    quoteField s.title ::
      [formatISO s.date, s.series.getD [], s.summary.getD [],
        List.intercalate [';'] s.tags,
        List.intercalate [';'] (s.references.getD []),
        s.type.getD [], s.place.getD []].map quoteField from rfl, heq]
  rcases List.mem_cons.mp hb with rfl | hb'
  · exact quoteField_getLast _
  · obtain ⟨f, _, rfl⟩ := List.mem_map.mp hb'
    exact quoteField_getLast f

theorem sermonsToCsv_trim (ss : List Sermon) : trimL (sermonsToCsv ss) = sermonsToCsv ss := by
  apply trimL_eq_self
  · intro c hc
    rw [show (sermonsToCsv ss).head? = csvHeaderLine.head? from
      head?_intercalate ['\n'] _ _ (by decide)] at hc
    rw [show csvHeaderLine.head? = some 'T' from rfl] at hc
    simp only [Option.some.injEq] at hc
    subst hc
    decide
  · intro c hc
    obtain ⟨b, hb, heq⟩ := getLast?_intercalate ['\n'] (ss.map csvRow) csvHeaderLine
      (by
        intro x hx
        rcases List.mem_cons.mp hx with rfl | hx'
        · decide
        · obtain ⟨s, _, rfl⟩ := List.mem_map.mp hx'
          exact csvRow_ne_nil s)
    rw [show sermonsToCsv ss =
      List.intercalate ['\n'] (csvHeaderLine :: ss.map csvRow) from rfl, heq] at hc
    rcases List.mem_cons.mp hb with rfl | hb'
    · rw [show csvHeaderLine.getLast? = some 'e' from by decide] at hc
      simp only [Option.some.injEq] at hc
      subst hc
      decide
    · obtain ⟨s, _, rfl⟩ := List.mem_map.mp hb'
      rw [csvRow_getLast s] at hc
      simp only [Option.some.injEq] at hc
      subst hc
      decide

theorem sermonsToCsv_split (ss : List Sermon) (h : ∀ s ∈ ss, cleanSermon s) :
    splitOnChar '\n' (sermonsToCsv ss) = csvHeaderLine :: ss.map csvRow := by
  apply splitOnChar_intercalate '\n' _ (by simp)
  intro x hx
  rcases List.mem_cons.mp hx with rfl | hx'
  · decide
  · obtain ⟨s, hs, rfl⟩ := List.mem_map.mp hx'
    intro hmem
    exact csvRow_no_newline s (h s hs) '\n' hmem rfl

/-- C2 (amended): for sermon lists whose fields are CSV-safe (no quote or
newline characters, already trimmed, non-empty title and place, clean
non-empty tag and reference items without the `;` join separator, series and
place either absent or clean and non-empty, and a valid calendar date in
1900–2100) with pairwise case-insensitively distinct titles, re-importing the
export preserves title, date (to the day), series, tags, references (an
absent list reimporting as present-but-empty), type (an absent type
reimporting as the empty string) and place; versions and images are not
reconstructed (every imported sermon has none). -/
theorem c2_csv_roundtrip (now : CalDate) (ss : List Sermon)
    (h1 : ∀ s ∈ ss, cleanSermon s)
    (h2 : ss.Pairwise (fun a b => strLower a.title ≠ strLower b.title)) :
    (parseCSV now (sermonsToCsv ss)).map outFields = ss.map inFields ∧
    ∀ t ∈ parseCSV now (sermonsToCsv ss), t.versions = none ∧ t.image = none := by
  rcases ss with _ | ⟨s0, rest⟩
  · have hnil : parseCSV now (sermonsToCsv ([] : List Sermon)) = [] := rfl
    exact ⟨rfl, fun t ht => absurd (hnil ▸ ht) (List.not_mem_nil t)⟩
  · have htrim := sermonsToCsv_trim (s0 :: rest)
    have hsplit := sermonsToCsv_split (s0 :: rest) h1
    have hbody : parseCSV now (sermonsToCsv (s0 :: rest)) =
        importRows stdColumnMap now 1 [] ((s0 :: rest).map csvRow) := by
      simp only [parseCSV, htrim, hsplit]
      rw [if_neg (by simp)]
      rfl
    obtain ⟨hA, hB⟩ := importRows_clean now (s0 :: rest) 1 [] h1 h2
      (fun s _ a ha => absurd ha (List.not_mem_nil a))
    rw [hbody]
    refine ⟨by simpa using hA, fun t ht => ?_⟩
    rcases hB t ht with h3 | h3
    · exact absurd h3 (List.not_mem_nil t)
    · exact h3

theorem c2_csv_roundtrip_witness :
    (∀ s ∈ [roundTripSermon], cleanSermon s) ∧
    (parseCSV ⟨2026, 10, 11⟩ (sermonsToCsv [roundTripSermon])).map outFields =
      [roundTripSermon].map inFields := by
  have h := c2_csv_roundtrip ⟨2026, 10, 11⟩ [roundTripSermon] (by decide) (by simp)
  exact ⟨by decide, h.1⟩

/-- C2 counterexample: two sermons sharing the title "Hope" merge into a
single sermon on re-import, whose date is the earlier one; no imported sermon
preserves the first input sermon's date 2025-01-05. -/
theorem c2_counterexample :
    (parseCSV ⟨2026, 10, 11⟩ (sermonsToCsv dupTitleSermons)).map
        (fun s => (s.title, s.date)) = [("Hope".data, ⟨2024, 12, 1⟩)] ∧
    dupTitleSermons.map (fun s => (s.title, s.date)) =
      [("Hope".data, ⟨2025, 1, 5⟩), ("Hope".data, ⟨2024, 12, 1⟩)] ∧
    (parseCSV ⟨2026, 10, 11⟩ (sermonsToCsv dupTitleSermons)).all
      (fun s => s.date != ⟨2025, 1, 5⟩) = true :=
  ⟨by decide, by decide, by decide⟩
